import Mathlib

/-!
Shallow embedding of the godbm storage engine (godbm.go): a file-backed hash
table mapping byte-string keys to byte-string values.  The file is modelled as
a list of bytes (`Bytes`), machine integers as `Nat` with explicit reductions
modulo `2 ^ 32` / `2 ^ 64` where the Go code performs fixed-width arithmetic.
Fallible file reads return `Option`; the recursive tree walk `binSearch` takes
explicit fuel, with fuel exhaustion modelling divergence of the Go recursion.
-/

namespace Godbm

abbrev Bytes := List Nat

/-- Big-endian encoding of a `uint32` value (the byte extraction reduces the
argument modulo `2 ^ 32` exactly as Go's fixed-width write does). -/
def be32 (n : Nat) : Bytes :=
  [n / 2 ^ 24 % 256, n / 2 ^ 16 % 256, n / 2 ^ 8 % 256, n % 256]

/-- Big-endian encoding of a `uint64` value. -/
def be64 (n : Nat) : Bytes :=
  [n / 2 ^ 56 % 256, n / 2 ^ 48 % 256, n / 2 ^ 40 % 256, n / 2 ^ 32 % 256,
   n / 2 ^ 24 % 256, n / 2 ^ 16 % 256, n / 2 ^ 8 % 256, n % 256]

/-- Big-endian decoding of 4 bytes, as performed by `binary.Read` on a uint32. -/
def de32 (b : Bytes) : Nat :=
  b.getD 0 0 * 2 ^ 24 + b.getD 1 0 * 2 ^ 16 + b.getD 2 0 * 2 ^ 8 + b.getD 3 0

/-- Big-endian decoding of 8 bytes, as performed by `binary.Read` on a uint64. -/
def de64 (b : Bytes) : Nat :=
  b.getD 0 0 * 2 ^ 56 + b.getD 1 0 * 2 ^ 48 + b.getD 2 0 * 2 ^ 40 + b.getD 3 0 * 2 ^ 32 +
  b.getD 4 0 * 2 ^ 24 + b.getD 5 0 * 2 ^ 16 + b.getD 6 0 * 2 ^ 8 + b.getD 7 0

/-- Little-endian decoding of 4 bytes (used by MD5 when loading message words). -/
def le32 (b : Bytes) : Nat :=
  b.getD 0 0 + b.getD 1 0 * 2 ^ 8 + b.getD 2 0 * 2 ^ 16 + b.getD 3 0 * 2 ^ 24

/-- Little-endian encoding of a `uint32` value (MD5 state words in the digest). -/
def le32bytes (n : Nat) : Bytes :=
  [n % 256, n / 2 ^ 8 % 256, n / 2 ^ 16 % 256, n / 2 ^ 24 % 256]

/-- Little-endian encoding of a `uint64` value (MD5 length field). -/
def le64bytes (n : Nat) : Bytes :=
  [n % 256, n / 2 ^ 8 % 256, n / 2 ^ 16 % 256, n / 2 ^ 24 % 256,
   n / 2 ^ 32 % 256, n / 2 ^ 40 % 256, n / 2 ^ 48 % 256, n / 2 ^ 56 % 256]

/-- Model of `os.File.ReadAt`: succeeds only when `n` bytes are available at
offset `off`, mirroring Go's error on a short read. -/
def readAt (file : Bytes) (off n : Nat) : Option Bytes :=
  if off + n ≤ file.length then some ((file.drop off).take n) else none

/-- Model of `os.File.WriteAt`: overwrites `data` at offset `off`, zero-filling
any gap past the old end of file (as POSIX writes do) and extending the file
when the write runs past the end. -/
def writeAt (file : Bytes) (off : Nat) (data : Bytes) : Bytes :=
  file.take off ++ List.replicate (off - file.length) 0 ++ data ++ file.drop (off + data.length)

/-- Model of `bytes.Compare`: byte-wise lexicographic comparison, a shorter
strict prefix compares less. -/
def bytesCompare : Bytes → Bytes → Ordering
  | [], [] => .eq
  | [], _ :: _ => .lt
  | _ :: _, [] => .gt
  | a :: as, b :: bs =>
    if a < b then .lt else if b < a then .gt else bytesCompare as bs

/-! ## MD5 (crypto/md5), used by the bucket function -/

/-- The MD5 per-round left-rotation amounts. -/
def md5s : List Nat :=
  [7, 12, 17, 22, 7, 12, 17, 22, 7, 12, 17, 22, 7, 12, 17, 22,
   5, 9, 14, 20, 5, 9, 14, 20, 5, 9, 14, 20, 5, 9, 14, 20,
   4, 11, 16, 23, 4, 11, 16, 23, 4, 11, 16, 23, 4, 11, 16, 23,
   6, 10, 15, 21, 6, 10, 15, 21, 6, 10, 15, 21, 6, 10, 15, 21]

/-- The MD5 sine-derived additive constants. -/
def md5K : List Nat :=
  [0xd76aa478, 0xe8c7b756, 0x242070db, 0xc1bdceee,
   0xf57c0faf, 0x4787c62a, 0xa8304613, 0xfd469501,
   0x698098d8, 0x8b44f7af, 0xffff5bb1, 0x895cd7be,
   0x6b901122, 0xfd987193, 0xa679438e, 0x49b40821,
   0xf61e2562, 0xc040b340, 0x265e5a51, 0xe9b6c7aa,
   0xd62f105d, 0x02441453, 0xd8a1e681, 0xe7d3fbc8,
   0x21e1cde6, 0xc33707d6, 0xf4d50d87, 0x455a14ed,
   0xa9e3e905, 0xfcefa3f8, 0x676f02d9, 0x8d2a4c8a,
   0xfffa3942, 0x8771f681, 0x6d9d6122, 0xfde5380c,
   0xa4beea44, 0x4bdecfa9, 0xf6bb4b60, 0xbebfbc70,
   0x289b7ec6, 0xeaa127fa, 0xd4ef3085, 0x04881d05,
   0xd9d4d039, 0xe6db99e5, 0x1fa27cf8, 0xc4ac5665,
   0xf4292244, 0x432aff97, 0xab9423a7, 0xfc93a039,
   0x655b59c3, 0x8f0ccc92, 0xffeff47d, 0x85845dd1,
   0x6fa87e4f, 0xfe2ce6e0, 0xa3014314, 0x4e0811a1,
   0xf7537e82, 0xbd3af235, 0x2ad7d2bb, 0xeb86d391]

/-- 32-bit left rotation. -/
def rotl32 (x s : Nat) : Nat :=
  ((x <<< s) ||| (x >>> (32 - s))) % 2 ^ 32

/-- The MD5 round mixing function for step `i`. -/
def md5F (i b c d : Nat) : Nat :=
  if i < 16 then (b &&& c) ||| ((b ^^^ 0xffffffff) &&& d)
  else if i < 32 then (d &&& b) ||| ((d ^^^ 0xffffffff) &&& c)
  else if i < 48 then b ^^^ c ^^^ d
  else c ^^^ (b ||| (d ^^^ 0xffffffff))

/-- The MD5 message-word index for step `i`. -/
def md5G (i : Nat) : Nat :=
  if i < 16 then i
  else if i < 32 then (5 * i + 1) % 16
  else if i < 48 then (3 * i + 5) % 16
  else (7 * i) % 16

/-- The 16 little-endian message words of one 64-byte chunk. -/
def chunkWords (c : Bytes) : List Nat :=
  (List.range 16).map (fun i => le32 ((c.drop (4 * i)).take 4))

/-- One step of the MD5 compression function. -/
def md5Step (M : List Nat) (st : Nat × Nat × Nat × Nat) (i : Nat) : Nat × Nat × Nat × Nat :=
  let a := st.1
  let b := st.2.1
  let c := st.2.2.1
  let d := st.2.2.2
  let f := (md5F i b c d + a + md5K.getD i 0 + M.getD (md5G i) 0) % 2 ^ 32
  (d, (b + rotl32 f (md5s.getD i 0)) % 2 ^ 32, b, c)

/-- Process one 64-byte chunk. -/
def md5Chunk (st : Nat × Nat × Nat × Nat) (c : Bytes) : Nat × Nat × Nat × Nat :=
  let r := (List.range 64).foldl (md5Step (chunkWords c)) st
  ((st.1 + r.1) % 2 ^ 32, (st.2.1 + r.2.1) % 2 ^ 32,
   (st.2.2.1 + r.2.2.1) % 2 ^ 32, (st.2.2.2 + r.2.2.2) % 2 ^ 32)

/-- MD5 padding: a 0x80 byte, zeros to 56 mod 64, then the bit length in
little-endian (reduced modulo `2 ^ 64` by the byte extraction). -/
def md5Pad (msg : Bytes) : Bytes :=
  msg ++ [0x80] ++ List.replicate ((120 - (msg.length + 1) % 64) % 64) 0 ++
    le64bytes (msg.length * 8)

/-- Process `n` chunks of 64 bytes each. -/
def md5Loop : Nat → Nat × Nat × Nat × Nat → Bytes → Nat × Nat × Nat × Nat
  | 0, st, _ => st
  | n + 1, st, msg => md5Loop n (md5Chunk st (msg.take 64)) (msg.drop 64)

/-- The 16-byte MD5 digest of a message, as returned by `md5.Sum` in Go. -/
def md5 (msg : Bytes) : Bytes :=
  let padded := md5Pad msg
  let st := md5Loop (padded.length / 64) (0x67452301, 0xefcdab89, 0x98badcfe, 0x10325476) padded
  le32bytes st.1 ++ le32bytes st.2.1 ++ le32bytes st.2.2.1 ++ le32bytes st.2.2.2

/-! ## The hash-to-bucket mapping (`HashDB.bucket`) -/

/-- The bucket-index computation from the 16-byte digest, exactly as the Go
loop performs it: `bucket_id |= uint64(sum[i] << (8 * i))`.  The shift is done
in `uint8` (hence the reduction modulo 256 before widening), and the mask is
`((1 << 64) - 1) >> (64 - nbuckets)` with Go's `uint32` subtraction and
shift-past-width-gives-zero semantics. -/
def bucketFromSum (nbuckets : Nat) (sum : Bytes) : Nat :=
  let bid := (List.range 8).foldl (fun acc i => acc ||| ((sum.getD i 0 <<< (8 * i)) % 256)) 0
  bid &&& ((2 ^ 64 - 1) >>> ((64 + 2 ^ 32 - nbuckets % 2 ^ 32) % 2 ^ 32))

/-- `HashDB.bucket`: the bucket index of a key. -/
def bucket (nbuckets : Nat) (key : Bytes) : Nat :=
  bucketFromSum nbuckets (md5 key)

/-! ## Records and the record codec -/

/-- The in-memory `record` struct: absolute offset, allocated size (including
padding), left/right child offsets, and the key/value payload. -/
structure record where
  offset : Nat
  size : Nat
  left : Nat
  right : Nat
  key : Bytes
  value : Bytes
deriving Repr, DecidableEq

/-- The 28-byte record header written by `writeRecord`: allocated size, left
offset, right offset, key length, value length, all big-endian. -/
def encHeader (r : record) : Bytes :=
  be32 r.size ++ be64 r.left ++ be64 r.right ++ be32 r.key.length ++ be32 r.value.length

/-- The exact `r.size` bytes `writeRecord` emits: header, key, value, zero
padding up to the allocated size (`buffer.Bytes()[:rec.size]` also truncates
when the payload exceeds the allocated size, hence the final `take`). -/
def encodeRecord (r : record) : Bytes :=
  let payload := encHeader r ++ r.key ++ r.value
  (payload ++ List.replicate (r.size - payload.length) 0).take r.size

/-- `HashDB.writeRecord`: write the serialized record at its offset with
`WriteAt`. -/
def writeRecord (file : Bytes) (r : record) : Bytes :=
  writeAt file r.offset (encodeRecord r)

/-- `HashDB.readRecord`: read the 28-byte header at the offset, then the
`keyl + vall` payload bytes right after the header (`keyl + vall` is computed
in `uint32`). `none` models the propagated `ReadAt` error on a short read. -/
def readRecord (file : Bytes) (off : Nat) : Option record :=
  match readAt file off 28 with
  | none => none
  | some header =>
    let size := de32 header
    let left := de64 (header.drop 4)
    let right := de64 (header.drop 12)
    let keyl := de32 (header.drop 20)
    let vall := de32 (header.drop 24)
    match readAt file (off + 28) ((keyl + vall) % 2 ^ 32) with
    | none => none
    | some data =>
      some { offset := off, size := size, left := left, right := right,
             key := data.take keyl, value := (data.drop keyl).take vall }

/-- `nextPowerTwo`: the bit-smearing round-up to a power of two, on `uint32`
(the increment at the end wraps modulo `2 ^ 32`; shifts by 32 and 64 yield 0
on a `uint32` in Go, which the `Nat` shifts reproduce for inputs below
`2 ^ 32`). -/
def nextPowerTwo (x : Nat) : Nat :=
  if x = 0 then 1
  else
    let y := [1, 2, 4, 8, 16, 32, 64].foldl (fun a i => a ||| (a >>> i)) (x - 1)
    (y + 1) % 2 ^ 32

/-! ## The database state and its operations -/

/-- The `HashDB` struct: bucket-count exponent, in-memory bucket directory,
and the backing file contents. -/
structure HashDB where
  nbuckets : Nat
  buckets : List Nat
  file : Bytes
deriving Repr, DecidableEq

/-- Header plus bucket directory as serialized by `writeBuckets`. -/
def dirBytes (nbuckets : Nat) (buckets : List Nat) : Bytes :=
  be32 nbuckets ++ (buckets.map be64).flatten

/-- Length of the header plus directory region for exponent `B`. -/
def dirLen (B : Nat) : Nat := 4 + 8 * 2 ^ B

/-- `HashDB.writeBuckets`: rewrite the whole header + directory block at
offset 0. -/
def writeBuckets (db : HashDB) : HashDB :=
  { db with file := writeAt db.file 0 (dirBytes db.nbuckets db.buckets) }

/-- `Create`: a fresh database with `2 ^ nbuckets` empty buckets and the
header + directory written to the (initially empty) file. -/
def Create (nbuckets : Nat) : HashDB :=
  writeBuckets { nbuckets := nbuckets, buckets := List.replicate (2 ^ nbuckets) 0, file := [] }

/-- Result of the recursive `binSearch` walk.  `diverge` marks fuel
exhaustion (the Go recursion would not terminate or would exhaust the stack);
`ioError` a propagated read error; `found cmp rec` the final comparison
result together with the last record visited (the match, or the would-be
parent for an insertion). -/
inductive SearchResult where
  | diverge
  | ioError
  | found (cmp : Ordering) (rec : record)
deriving Repr, DecidableEq

/-- `HashDB.binSearch`: walk the bucket tree from `off`, descending left on
`cmp < 0` and right on `cmp > 0` while the corresponding child offset is
non-zero. -/
def binSearch (file : Bytes) (key : Bytes) : Nat → Nat → SearchResult
  | _, 0 => .diverge
  | off, fuel + 1 =>
    match readRecord file off with
    | none => .ioError
    | some rec =>
      match bytesCompare key rec.key with
      | .lt => if rec.left ≠ 0 then binSearch file key rec.left fuel else .found .lt rec
      | .gt => if rec.right ≠ 0 then binSearch file key rec.right fuel else .found .gt rec
      | .eq => .found .eq rec

/-- Result of `Get`: Go returns `(nil, nil)` for an absent key (`notFound`),
`(nil, err)` on a read failure (`ioError`), and the stored value bytes on a
hit. -/
inductive GetResult where
  | notFound
  | ioError
  | diverge
  | found (value : Bytes)
deriving Repr, DecidableEq

/-- `HashDB.Get`: look the key up in its bucket tree. -/
def Get (db : HashDB) (key : Bytes) : GetResult :=
  let off := db.buckets.getD (bucket db.nbuckets key) 0
  if off = 0 then .notFound
  else
    match binSearch db.file key off (db.file.length + 1) with
    | .diverge => .diverge
    | .ioError => .ioError
    | .found .eq rec => .found rec.value
    | .found .lt _ => .notFound
    | .found .gt _ => .notFound

/-- Result of `Set`.  On the error path the Go function returns before any
write, leaving the state unchanged. -/
inductive SetResult where
  | ok (db : HashDB)
  | ioError
  | diverge
deriving Repr, DecidableEq

/-- `HashDB.Set`: append a record for `(key, value)` at the end of file.  On a
first insertion into the bucket the directory root is set (and the whole
directory block rewritten); otherwise the tree walk finds the parent and its
`left`/`right` link is rewritten in place, except when an equal key is found,
in which case nothing is linked (the appended record stays an orphan). -/
def Set (db : HashDB) (key value : Bytes) : SetResult :=
  let offset := db.file.length
  let bid := bucket db.nbuckets key
  let newRec : record :=
    { offset := offset, size := nextPowerTwo ((28 + key.length + value.length) % 2 ^ 32),
      left := 0, right := 0, key := key, value := value }
  if db.buckets.getD bid 0 = 0 then
    let db1 := writeBuckets { db with buckets := db.buckets.set bid offset }
    .ok { db1 with file := writeRecord db1.file newRec }
  else
    match binSearch db.file key (db.buckets.getD bid 0) (db.file.length + 1) with
    | .diverge => .diverge
    | .ioError => .ioError
    | .found cmp other =>
      let db1 :=
        match cmp with
        | .eq => db
        | .lt => { db with file := writeRecord db.file { other with left := offset } }
        | .gt => { db with file := writeRecord db.file { other with right := offset } }
      .ok { db1 with file := writeRecord db1.file newRec }

/-- Run a sequence of `Set` operations, failing if any of them fails. -/
def runSets (db : HashDB) : List (Bytes × Bytes) → Option HashDB
  | [] => some db
  | (k, v) :: ops =>
    match Set db k v with
    | .ok db1 => runSets db1 ops
    | _ => none

/-! ## Byte-level lemmas: encode/decode roundtrips and file algebra -/

theorem length_be32 (n : Nat) : (be32 n).length = 4 := rfl

theorem length_be64 (n : Nat) : (be64 n).length = 8 := rfl

theorem de32_be32 (n : Nat) (rest : Bytes) (h : n < 2 ^ 32) : de32 (be32 n ++ rest) = n := by
  simp only [de32, be32, List.cons_append, List.nil_append, List.getD_cons_zero,
    List.getD_cons_succ]
  omega

theorem de64_be64 (n : Nat) (rest : Bytes) (h : n < 2 ^ 64) : de64 (be64 n ++ rest) = n := by
  simp only [de64, be64, List.cons_append, List.nil_append, List.getD_cons_zero,
    List.getD_cons_succ]
  omega

theorem readAt_append (pre rest : Bytes) (o n : Nat) :
    readAt (pre ++ rest) (pre.length + o) n = readAt rest o n := by
  simp only [readAt, List.length_append, List.drop_append]
  by_cases h : o + n ≤ rest.length
  · rw [if_pos (by omega), if_pos h]
  · rw [if_neg (by omega), if_neg h]

theorem readAt_zero (rest : Bytes) (n : Nat) (h : n ≤ rest.length) :
    readAt rest 0 n = some (rest.take n) := by
  simp [readAt, h]

theorem writeAt_append (file data : Bytes) : writeAt file file.length data = file ++ data := by
  unfold writeAt
  rw [List.take_length, Nat.sub_self, List.replicate_zero,
    List.drop_eq_nil_of_le (by omega)]
  simp

theorem writeAt_replace (pre old new post : Bytes) (h : new.length = old.length) :
    writeAt (pre ++ (old ++ post)) pre.length new = pre ++ (new ++ post) := by
  unfold writeAt
  rw [List.take_left]
  have h1 : pre.length - (pre ++ (old ++ post)).length = 0 := by
    simp [List.length_append]
  rw [h1, List.replicate_zero]
  have h3 : (pre ++ (old ++ post)).drop (pre.length + new.length) = post := by
    rw [h, List.drop_append, List.drop_left]
  rw [h3]
  simp

theorem writeAt_zero (old new post : Bytes) (h : new.length = old.length) :
    writeAt (old ++ post) 0 new = new ++ post := by
  have h0 := writeAt_replace [] old new post h
  simpa using h0

/-- Well-formedness of a record as stored on disk: the payload fits in the
allocated size and every header field fits its fixed width. -/
structure WfRec (r : record) : Prop where
  hsz : 28 + r.key.length + r.value.length ≤ r.size
  hsz32 : r.size < 2 ^ 32
  hleft : r.left < 2 ^ 64
  hright : r.right < 2 ^ 64

theorem length_encHeader (r : record) : (encHeader r).length = 28 := by
  simp [encHeader, be32, be64]

theorem encodeRecord_eq (r : record) (h : 28 + r.key.length + r.value.length ≤ r.size) :
    encodeRecord r =
      encHeader r ++ r.key ++ r.value ++
        List.replicate (r.size - (28 + r.key.length + r.value.length)) 0 := by
  unfold encodeRecord
  dsimp only
  have hl : (encHeader r ++ r.key ++ r.value).length = 28 + r.key.length + r.value.length := by
    simp [length_encHeader]
    omega
  rw [hl]
  apply List.take_of_length_le
  simp [length_encHeader]
  omega

theorem length_encodeRecord (r : record) : (encodeRecord r).length = r.size := by
  unfold encodeRecord
  dsimp only
  simp [List.length_take, length_encHeader]
  omega

theorem readRecord_encode (pre post : Bytes) (r : record) (hwf : WfRec r) :
    readRecord (pre ++ (encodeRecord r ++ post)) pre.length =
      some { r with offset := pre.length } := by
  have hkl : r.key.length < 2 ^ 32 := by have := hwf.hsz; have := hwf.hsz32; omega
  have hvl : r.value.length < 2 ^ 32 := by have := hwf.hsz; have := hwf.hsz32; omega
  have henc := encodeRecord_eq r hwf.hsz
  have hel := length_encodeRecord r
  have hsplit : encodeRecord r ++ post =
      encHeader r ++ (r.key ++ (r.value ++
        (List.replicate (r.size - (28 + r.key.length + r.value.length)) 0 ++ post))) := by
    rw [henc]
    simp [List.append_assoc]
  have hlen : 28 + (r.key.length + r.value.length) ≤ (encodeRecord r ++ post).length := by
    simp [hel]
    have := hwf.hsz
    omega
  have hhead : (encodeRecord r ++ post).take 28 = encHeader r := by
    rw [hsplit]
    exact List.take_left' (length_encHeader r)
  have hread1 : readAt (pre ++ (encodeRecord r ++ post)) pre.length 28 = some (encHeader r) := by
    have h0 := readAt_append pre (encodeRecord r ++ post) 0 28
    rw [Nat.add_zero] at h0
    rw [h0, readAt_zero _ _ (by omega), hhead]
  have hp1 : de32 (encHeader r) = r.size := by
    simp only [encHeader, be32, be64, List.cons_append, List.nil_append, de32,
      List.getD_cons_zero, List.getD_cons_succ]
    have := hwf.hsz32
    omega
  have hp2 : de64 ((encHeader r).drop 4) = r.left := by
    simp only [encHeader, be32, be64, List.cons_append, List.nil_append, de64,
      List.drop_succ_cons, List.drop_zero, List.getD_cons_zero, List.getD_cons_succ]
    have := hwf.hleft
    omega
  have hp3 : de64 ((encHeader r).drop 12) = r.right := by
    simp only [encHeader, be32, be64, List.cons_append, List.nil_append, de64,
      List.drop_succ_cons, List.drop_zero, List.getD_cons_zero, List.getD_cons_succ]
    have := hwf.hright
    omega
  have hp4 : de32 ((encHeader r).drop 20) = r.key.length := by
    simp only [encHeader, be32, be64, List.cons_append, List.nil_append, de32,
      List.drop_succ_cons, List.drop_zero, List.getD_cons_zero, List.getD_cons_succ]
    omega
  have hp5 : de32 ((encHeader r).drop 24) = r.value.length := by
    simp only [encHeader, be32, be64, List.cons_append, List.nil_append, de32,
      List.drop_succ_cons, List.drop_zero, List.getD_cons_zero, List.getD_cons_succ]
    omega
  have hdata : (encodeRecord r ++ post).drop 28 =
      (r.key ++ r.value) ++
        (List.replicate (r.size - (28 + r.key.length + r.value.length)) 0 ++ post) := by
    rw [hsplit, List.drop_left' (length_encHeader r)]
    simp [List.append_assoc]
  have hmod : (r.key.length + r.value.length) % 2 ^ 32 = r.key.length + r.value.length := by
    apply Nat.mod_eq_of_lt
    have := hwf.hsz
    have := hwf.hsz32
    omega
  have hread2 : readAt (pre ++ (encodeRecord r ++ post)) (pre.length + 28)
      (r.key.length + r.value.length) = some (r.key ++ r.value) := by
    rw [readAt_append]
    unfold readAt
    rw [if_pos (by simp [hel]; have := hwf.hsz; omega)]
    rw [hdata]
    congr 1
    exact List.take_left' (by simp)
  unfold readRecord
  rw [hread1]
  simp only [hp1, hp2, hp3, hp4, hp5, hmod, hread2]
  congr 1
  have hk : (r.key ++ r.value).take r.key.length = r.key := List.take_left r.key r.value
  have hv : ((r.key ++ r.value).drop r.key.length).take r.value.length = r.value := by
    rw [List.drop_left, List.take_length]
  cases r
  simp_all

/-! ## Order theory for `bytesCompare` -/

theorem bytesCompare_refl (a : Bytes) : bytesCompare a a = .eq := by
  induction a with
  | nil => rfl
  | cons x xs ih => simp [bytesCompare, ih]

theorem bytesCompare_eq_iff : ∀ (a b : Bytes), bytesCompare a b = .eq ↔ a = b
  | [], [] => by simp [bytesCompare]
  | [], _ :: _ => by simp [bytesCompare]
  | _ :: _, [] => by simp [bytesCompare]
  | a :: as, b :: bs => by
    unfold bytesCompare
    by_cases h1 : a < b
    · rw [if_pos h1]
      simp only [List.cons.injEq]
      constructor
      · intro h
        cases h
      · rintro ⟨rfl, -⟩
        omega
    · by_cases h2 : b < a
      · rw [if_neg h1, if_pos h2]
        simp only [List.cons.injEq]
        constructor
        · intro h
          cases h
        · rintro ⟨rfl, -⟩
          omega
      · have hab : a = b := by omega
        subst hab
        rw [if_neg h1, if_neg h2]
        simp [bytesCompare_eq_iff as bs]

theorem bytesCompare_lt_gt (a : Bytes) : ∀ b, bytesCompare a b = .lt ↔ bytesCompare b a = .gt := by
  induction a with
  | nil =>
    intro b
    cases b <;> simp [bytesCompare]
  | cons x xs ih =>
    intro b
    cases b with
    | nil => simp [bytesCompare]
    | cons y ys =>
      unfold bytesCompare
      by_cases h1 : x < y
      · rw [if_pos h1, if_neg (by omega : ¬y < x), if_pos h1]
        simp
      · by_cases h2 : y < x
        · rw [if_neg h1, if_pos h2, if_pos h2]
          simp
        · rw [if_neg h1, if_neg h2, if_neg h2, if_neg h1]
          exact ih ys

theorem bytesCompare_lt_trans (a : Bytes) :
    ∀ b c, bytesCompare a b = .lt → bytesCompare b c = .lt → bytesCompare a c = .lt := by
  induction a with
  | nil =>
    intro b c h1 h2
    cases b with
    | nil => simp [bytesCompare] at h1
    | cons y ys =>
      cases c with
      | nil => simp [bytesCompare] at h2
      | cons z zs => simp [bytesCompare]
  | cons x xs ih =>
    intro b c h1 h2
    cases b with
    | nil => simp [bytesCompare] at h1
    | cons y ys =>
      cases c with
      | nil => simp [bytesCompare] at h2
      | cons z zs =>
        unfold bytesCompare at h1 h2 ⊢
        split_ifs at h1 h2 ⊢ <;>
          first
            | rfl
            | omega
            | exact ih ys zs h1 h2

/-! ## Abstract bucket trees and their BST theory -/

/-- Abstract shape of a bucket tree: each node carries the file offset of its
record together with the stored key and value. -/
inductive BTree where
  | tip
  | node (off : Nat) (key value : Bytes) (l r : BTree)
deriving Repr, DecidableEq

/-- In-order key list of a tree. -/
def keysT : BTree → List Bytes
  | .tip => []
  | .node _ k _ l r => keysT l ++ [k] ++ keysT r

/-- In-order entry list of a tree. -/
def entriesT : BTree → List (Bytes × Bytes)
  | .tip => []
  | .node _ k v l r => entriesT l ++ [(k, v)] ++ entriesT r

/-- Offsets of all nodes of a tree. -/
def tOffsets : BTree → List Nat
  | .tip => []
  | .node o _ _ l r => o :: (tOffsets l ++ tOffsets r)

/-- Height of a tree. -/
def depthT : BTree → Nat
  | .tip => 0
  | .node _ _ _ l r => 1 + max (depthT l) (depthT r)

/-- The binary-search-tree ordering invariant: at every node all keys of the
left subtree compare less than the node key, all keys of the right subtree
compare greater, byte-wise lexicographically. -/
def ST : BTree → Prop
  | .tip => True
  | .node _ k _ l r =>
    (∀ k' ∈ keysT l, bytesCompare k' k = .lt) ∧
    (∀ k' ∈ keysT r, bytesCompare k' k = .gt) ∧ ST l ∧ ST r

/-- Pure tree-level lookup, mirroring the comparison walk of `binSearch`. -/
def lookupT (key : Bytes) : BTree → Option Bytes
  | .tip => none
  | .node _ k v l r =>
    match bytesCompare key k with
    | .eq => some v
    | .lt => lookupT key l
    | .gt => lookupT key r

/-- Pure tree-level insertion at the position `binSearch` finds; the new node
is annotated with the file offset `newoff` the appended record receives. -/
def insertT (key value : Bytes) (newoff : Nat) : BTree → BTree
  | .tip => .node newoff key value .tip .tip
  | .node o k v l r =>
    match bytesCompare key k with
    | .lt => .node o k v (insertT key value newoff l) r
    | .gt => .node o k v l (insertT key value newoff r)
    | .eq => .node o k v l r

theorem entries_key_mem {k : Bytes} {v : Bytes} : ∀ {t : BTree}, (k, v) ∈ entriesT t → k ∈ keysT t := by
  intro t
  induction t with
  | tip => simp [entriesT, keysT]
  | node o k0 v0 l r ihl ihr =>
    simp only [entriesT, keysT, List.mem_append, List.mem_singleton]
    rintro ((h | h) | h)
    · exact Or.inl (Or.inl (ihl h))
    · exact Or.inl (Or.inr (by simp [Prod.ext_iff] at h; exact h.1))
    · exact Or.inr (ihr h)

theorem lookupT_mem {k v : Bytes} : ∀ {t : BTree}, lookupT k t = some v → (k, v) ∈ entriesT t := by
  intro t
  induction t with
  | tip => simp [lookupT]
  | node o k0 v0 l r ihl ihr =>
    unfold lookupT
    intro h
    simp only [entriesT, List.mem_append, List.mem_singleton]
    rcases hc : bytesCompare k k0 with hlt | heq | hgt
    · rw [hc] at h
      exact Or.inl (Or.inl (ihl h))
    · rw [hc] at h
      have hk : k = k0 := (bytesCompare_eq_iff k k0).mp hc
      cases h
      exact Or.inl (Or.inr (by rw [hk]))
    · rw [hc] at h
      exact Or.inr (ihr h)

theorem mem_lookupT {k v : Bytes} : ∀ {t : BTree}, ST t → (k, v) ∈ entriesT t → lookupT k t = some v := by
  intro t
  induction t with
  | tip => simp [entriesT]
  | node o k0 v0 l r ihl ihr =>
    intro hst hmem
    obtain ⟨hless, hgtr, hstl, hstr⟩ := hst
    simp only [entriesT, List.mem_append, List.mem_singleton] at hmem
    unfold lookupT
    rcases hmem with (h | h) | h
    · have hk : bytesCompare k k0 = .lt := hless k (entries_key_mem h)
      rw [hk]
      exact ihl hstl h
    · obtain ⟨rfl, rfl⟩ : k = k0 ∧ v = v0 := by simpa [Prod.ext_iff] using h
      rw [bytesCompare_refl]
    · have hk : bytesCompare k k0 = .gt := hgtr k (entries_key_mem h)
      rw [hk]
      exact ihr hstr h

theorem lookupT_isSome_of_mem {k : Bytes} : ∀ {t : BTree}, ST t → k ∈ keysT t → (lookupT k t).isSome := by
  intro t hst hk
  induction t with
  | tip => simp [keysT] at hk
  | node o k0 v0 l r ihl ihr =>
    obtain ⟨hless, hgtr, hstl, hstr⟩ := hst
    simp only [keysT, List.mem_append, List.mem_singleton] at hk
    unfold lookupT
    rcases hk with (h | h) | h
    · rw [hless k h]
      exact ihl hstl h
    · subst h
      rw [bytesCompare_refl]
      rfl
    · rw [hgtr k h]
      exact ihr hstr h

theorem lookupT_none_not_mem {k : Bytes} {t : BTree} (hst : ST t) (h : lookupT k t = none) :
    k ∉ keysT t := by
  intro hk
  have := lookupT_isSome_of_mem hst hk
  rw [h] at this
  simp at this

theorem keysT_insertT {k v : Bytes} {o : Nat} {k' : Bytes} :
    ∀ {t : BTree}, k' ∈ keysT (insertT k v o t) → k' ∈ keysT t ∨ k' = k := by
  intro t
  induction t with
  | tip => simp [insertT, keysT]
  | node o0 k0 v0 l r ihl ihr =>
    unfold insertT
    rcases hc : bytesCompare k k0 with hlt | heq | hgt <;>
      simp only [keysT, List.mem_append, List.mem_singleton]
    · rintro ((h | h) | h)
      · rcases ihl h with h' | h' <;> tauto
      · tauto
      · tauto
    · tauto
    · rintro ((h | h) | h)
      · tauto
      · tauto
      · rcases ihr h with h' | h' <;> tauto

theorem ST_insertT {k v : Bytes} {o : Nat} : ∀ {t : BTree}, ST t → ST (insertT k v o t) := by
  intro t
  induction t with
  | tip => simp [insertT, ST, keysT]
  | node o0 k0 v0 l r ihl ihr =>
    intro hst
    obtain ⟨hless, hgtr, hstl, hstr⟩ := hst
    unfold insertT
    rcases hc : bytesCompare k k0 with hlt | heq | hgt
    · refine ⟨?_, hgtr, ihl hstl, hstr⟩
      intro k' hk'
      rcases keysT_insertT hk' with h | h
      · exact hless k' h
      · rw [h, hc]
    · exact ⟨hless, hgtr, hstl, hstr⟩
    · refine ⟨hless, ?_, hstl, ihr hstr⟩
      intro k' hk'
      rcases keysT_insertT hk' with h | h
      · exact hgtr k' h
      · rw [h, hc]

theorem entriesT_insertT {k v : Bytes} {o : Nat} {e : Bytes × Bytes} :
    ∀ {t : BTree}, lookupT k t = none →
      (e ∈ entriesT (insertT k v o t) ↔ e ∈ entriesT t ∨ e = (k, v)) := by
  intro t
  induction t with
  | tip => simp [insertT, entriesT, lookupT]
  | node o0 k0 v0 l r ihl ihr =>
    intro hnone
    unfold lookupT at hnone
    unfold insertT
    rcases hc : bytesCompare k k0 with hlt | heq | hgt
    · rw [hc] at hnone
      simp only [entriesT, List.mem_append, List.mem_singleton, ihl hnone]
      tauto
    · rw [hc] at hnone
      cases hnone
    · rw [hc] at hnone
      simp only [entriesT, List.mem_append, List.mem_singleton, ihr hnone]
      tauto

theorem tOffsets_insertT {k v : Bytes} {o o' : Nat} :
    ∀ {t : BTree}, o' ∈ tOffsets (insertT k v o t) → o' ∈ tOffsets t ∨ o' = o := by
  intro t
  induction t with
  | tip => simp [insertT, tOffsets]
  | node o0 k0 v0 l r ihl ihr =>
    unfold insertT
    rcases hc : bytesCompare k k0 with hlt | heq | hgt <;>
      simp only [tOffsets, List.mem_cons, List.mem_append]
    · rintro (h | h | h)
      · tauto
      · rcases ihl h with h' | h' <;> tauto
      · tauto
    · tauto
    · rintro (h | h | h)
      · tauto
      · tauto
      · rcases ihr h with h' | h' <;> tauto

theorem rootOff_insertT {k v : Bytes} {newoff o0 : Nat} {k0 v0 : Bytes} {l r : BTree} :
    insertT k v newoff (.node o0 k0 v0 l r) = .tip → False := by
  unfold insertT
  rcases bytesCompare k k0 with _ | _ | _ <;> simp

/-! ## Linking trees to the record list by offset -/

/-- Look up the record stored at a given offset. -/
def findRec : List record → Nat → Option record
  | [], _ => none
  | r :: rs, off => if r.offset = off then some r else findRec rs off

theorem findRec_some {off : Nat} {r : record} :
    ∀ {recs : List record}, findRec recs off = some r → r ∈ recs ∧ r.offset = off := by
  intro recs
  induction recs with
  | nil => simp [findRec]
  | cons q rs ih =>
    simp only [findRec]
    by_cases hq : q.offset = off
    · rw [if_pos hq]
      intro h
      injection h with h2
      subst h2
      exact ⟨List.mem_cons_self _ _, hq⟩
    · rw [if_neg hq]
      intro h
      obtain ⟨h1, h2⟩ := ih h
      exact ⟨List.mem_cons_of_mem q h1, h2⟩

theorem findRec_append_left {l2 : List record} {off : Nat} {r : record} :
    ∀ {recs : List record}, findRec recs off = some r → findRec (recs ++ l2) off = some r := by
  intro recs
  induction recs with
  | nil => simp [findRec]
  | cons q rs ih =>
    rw [List.cons_append]
    simp only [findRec]
    by_cases hq : q.offset = off
    · rw [if_pos hq, if_pos hq]
      exact id
    · rw [if_neg hq, if_neg hq]
      exact ih

theorem findRec_none {off : Nat} :
    ∀ {recs : List record}, (∀ r ∈ recs, r.offset ≠ off) → findRec recs off = none := by
  intro recs
  induction recs with
  | nil => intro _; rfl
  | cons q rs ih =>
    intro h
    simp only [findRec]
    rw [if_neg (h q (List.mem_cons_self _ _))]
    exact ih fun r hr => h r (List.mem_cons_of_mem q hr)

theorem findRec_append_new {recs : List record} {x : record}
    (h : ∀ r ∈ recs, r.offset ≠ x.offset) : findRec (recs ++ [x]) x.offset = some x := by
  induction recs with
  | nil => simp [findRec]
  | cons q rs ih =>
    rw [List.cons_append]
    simp only [findRec]
    rw [if_neg (h q (List.mem_cons_self _ _))]
    exact ih fun r hr => h r (List.mem_cons_of_mem q hr)

/-- Replace the record stored at `p.offset` by `p`, leaving other offsets
unchanged (this is how the in-place parent rewrite acts on the record list). -/
def updateRec (recs : List record) (p : record) : List record :=
  recs.map (fun r => if r.offset = p.offset then p else r)

theorem findRec_updateRec_ne {p : record} {o : Nat} (h : o ≠ p.offset) :
    ∀ {recs : List record}, findRec (updateRec recs p) o = findRec recs o := by
  intro recs
  induction recs with
  | nil => rfl
  | cons r rs ih =>
    unfold updateRec at ih ⊢
    rw [List.map_cons]
    simp only [findRec]
    by_cases hr : r.offset = p.offset
    · have hro : r.offset ≠ o := by
        rw [hr]
        exact fun he => h he.symm
      rw [if_pos hr, if_neg (fun he => h he.symm), if_neg hro]
      exact ih
    · rw [if_neg hr]
      by_cases ho : r.offset = o
      · rw [if_pos ho, if_pos ho]
      · rw [if_neg ho, if_neg ho]
        exact ih

theorem findRec_updateRec_eq {p q : record} :
    ∀ {recs : List record}, findRec recs p.offset = some q →
      findRec (updateRec recs p) p.offset = some p := by
  intro recs
  induction recs with
  | nil => simp [findRec]
  | cons r rs ih =>
    intro h
    unfold updateRec at ih ⊢
    rw [List.map_cons]
    simp only [findRec] at h ⊢
    by_cases hr : r.offset = p.offset
    · rw [if_pos hr, if_pos rfl]
    · rw [if_neg hr] at h
      rw [if_neg hr, if_neg hr]
      exact ih h

/-- `Rep recs off t`: the tree hanging at file offset `off` (0 meaning empty)
is `t`, where every node is backed by the record found at its offset and
children sit at strictly larger offsets than their parent. -/
inductive Rep (recs : List record) : Nat → BTree → Prop where
  | tip : Rep recs 0 .tip
  | node {off : Nat} {r : record} {tl tr : BTree}
      (hfind : findRec recs off = some r) (hoff : off ≠ 0)
      (hl : Rep recs r.left tl) (hr : Rep recs r.right tr)
      (hlo : r.left ≠ 0 → off < r.left) (hro : r.right ≠ 0 → off < r.right) :
      Rep recs off (.node off r.key r.value tl tr)

theorem rep_zero {recs : List record} {t : BTree} (h : Rep recs 0 t) : t = .tip := by
  cases h with
  | tip => rfl
  | node hfind hoff hl hr hlo hro => exact absurd rfl hoff

theorem rep_offsets_lb {recs : List record} {off : Nat} {t : BTree} (h : Rep recs off t) :
    ∀ o ∈ tOffsets t, off ≤ o := by
  induction h with
  | tip => simp [tOffsets]
  | node hfind hoff hl hr hlo hro ihl ihr =>
    intro o ho
    simp only [tOffsets, List.mem_cons, List.mem_append] at ho
    rename_i off r tl tr
    rcases ho with rfl | ho | ho
    · exact Nat.le_refl o
    · rcases Nat.eq_zero_or_pos r.left with h0 | hpos
      · rw [h0] at hl
        rw [rep_zero hl] at ho
        simp [tOffsets] at ho
      · have h1 := hlo (by omega)
        have h2 := ihl o ho
        omega
    · rcases Nat.eq_zero_or_pos r.right with h0 | hpos
      · rw [h0] at hr
        rw [rep_zero hr] at ho
        simp [tOffsets] at ho
      · have h1 := hro (by omega)
        have h2 := ihr o ho
        omega

theorem rep_found {recs : List record} {off : Nat} {t : BTree} (h : Rep recs off t) :
    ∀ o ∈ tOffsets t, ∃ r, findRec recs o = some r := by
  induction h with
  | tip => simp [tOffsets]
  | node hfind hoff hl hr hlo hro ihl ihr =>
    intro o ho
    simp only [tOffsets, List.mem_cons, List.mem_append] at ho
    rcases ho with rfl | ho | ho
    · exact ⟨_, hfind⟩
    · exact ihl o ho
    · exact ihr o ho

theorem rep_frame {recs recs2 : List record} {off : Nat} {t : BTree} (h : Rep recs off t)
    (hsame : ∀ o ∈ tOffsets t, findRec recs2 o = findRec recs o) : Rep recs2 off t := by
  induction h with
  | tip => exact Rep.tip
  | node hfind hoff hl hr hlo hro ihl ihr =>
    rename_i off r tl tr
    refine Rep.node ?_ hoff ?_ ?_ hlo hro
    · rw [hsame off (by simp [tOffsets])]
      exact hfind
    · exact ihl fun o ho => hsame o (by simp [tOffsets, ho])
    · exact ihr fun o ho => hsame o (by simp [tOffsets, ho])

theorem rep_unique {recs : List record} {off : Nat} {t1 : BTree} (h1 : Rep recs off t1) :
    ∀ {t2 : BTree}, Rep recs off t2 → t1 = t2 := by
  induction h1 with
  | tip =>
    intro t2 h2
    exact (rep_zero h2).symm
  | node hfind hoff hl hr hlo hro ihl ihr =>
    intro t2 h2
    cases h2 with
    | tip => exact absurd rfl hoff
    | node hfind2 hoff2 hl2 hr2 hlo2 hro2 =>
      rename_i off r tl tr r2 tl2 tr2
      have hr12 : r = r2 := by
        rw [hfind] at hfind2
        exact Option.some_injective _ hfind2
      subst hr12
      rw [ihl hl2, ihr hr2]

theorem rep_depth_le {recs : List record} {L : Nat} (hL : ∀ r ∈ recs, r.offset < L) :
    ∀ {off : Nat} {t : BTree}, Rep recs off t → off ≠ 0 → depthT t + off ≤ L := by
  intro off t h
  induction h with
  | tip => intro h0; exact absurd rfl h0
  | node hfind hoff hl hr hlo hro ihl ihr =>
    rename_i off r tl tr
    intro _
    have hoffL : off < L := by
      obtain ⟨hmem, heq⟩ := findRec_some hfind
      have := hL r hmem
      omega
    have hdl : depthT tl + off + 1 ≤ L := by
      rcases Nat.eq_zero_or_pos r.left with h0 | hpos
      · rw [h0] at hl
        rw [rep_zero hl]
        simp [depthT]
        omega
      · have h1 := hlo (by omega)
        have h2 := ihl (by omega)
        omega
    have hdr : depthT tr + off + 1 ≤ L := by
      rcases Nat.eq_zero_or_pos r.right with h0 | hpos
      · rw [h0] at hr
        rw [rep_zero hr]
        simp [depthT]
        omega
      · have h1 := hro (by omega)
        have h2 := ihr (by omega)
        omega
    simp only [depthT]
    omega

/-! ## Simulation: `binSearch` against a represented tree -/

theorem rep_node_inv {recs : List record} {off : Nat} {o0 : Nat} {k0 v0 : Bytes} {l r : BTree}
    (h : Rep recs off (.node o0 k0 v0 l r)) :
    ∃ rec : record, o0 = off ∧ findRec recs off = some rec ∧ rec.key = k0 ∧ rec.value = v0 ∧
      Rep recs rec.left l ∧ Rep recs rec.right r ∧
      (rec.left ≠ 0 → off < rec.left) ∧ (rec.right ≠ 0 → off < rec.right) := by
  cases h with
  | node hfind hoff hl hr hlo hro => exact ⟨_, rfl, hfind, rfl, rfl, hl, hr, hlo, hro⟩

theorem binSearch_found {file key : Bytes} {recs : List record}
    (hread : ∀ r ∈ recs, readRecord file r.offset = some r) :
    ∀ {t : BTree} {off fuel : Nat}, Rep recs off t → off ≠ 0 → depthT t < fuel →
      ∃ p : record, findRec recs p.offset = some p ∧ p.offset ∈ tOffsets t ∧
        binSearch file key off fuel = .found (bytesCompare key p.key) p ∧
        (bytesCompare key p.key = .eq → lookupT key t = some p.value) ∧
        (bytesCompare key p.key = .lt → p.left = 0 ∧ lookupT key t = none) ∧
        (bytesCompare key p.key = .gt → p.right = 0 ∧ lookupT key t = none) := by
  intro t
  induction t with
  | tip =>
    intro off fuel hrep hoff _
    cases hrep
    exact absurd rfl hoff
  | node o0 k0 v0 l r ihl ihr =>
    intro off fuel hrep hoff hfuel
    obtain ⟨rec, rfl, hfind, rfl, rfl, hl, hr2, hlo, hro⟩ := rep_node_inv hrep
    cases fuel with
    | zero => omega
    | succ f =>
      have hoffrec : rec.offset = o0 := (findRec_some hfind).2
      have hmem : rec ∈ recs := (findRec_some hfind).1
      have hreadoff : readRecord file o0 = some rec := by
        have h0 := hread rec hmem
        rwa [hoffrec] at h0
      rcases hc : bytesCompare key rec.key with _ | _ | _
      · by_cases hleft : rec.left = 0
        · have hltip : l = BTree.tip := by
            rw [hleft] at hl
            exact rep_zero hl

          refine ⟨rec, by rw [hoffrec]; exact hfind,
            by simp only [tOffsets, List.mem_cons, List.mem_append]; exact Or.inl hoffrec,
            ?_, ?_, ?_, ?_⟩
          · simp [binSearch, hreadoff, hc, hleft]
          · intro h2
            rw [hc] at h2
            cases h2
          · intro _
            refine ⟨hleft, ?_⟩
            simp [lookupT, hc, hltip]
          · intro h2
            rw [hc] at h2
            cases h2
        · have hdl : depthT l < f := by
            simp only [depthT] at hfuel
            omega
          obtain ⟨p, hp1, hp2, hp3, hp4, hp5, hp6⟩ := ihl hl hleft hdl
          refine ⟨p, hp1, ?_, ?_, ?_, ?_, ?_⟩
          · simp only [tOffsets, List.mem_cons, List.mem_append]
            exact Or.inr (Or.inl hp2)
          · rw [show binSearch file key o0 (f + 1) = binSearch file key rec.left f by
              simp [binSearch, hreadoff, hc, hleft]]
            exact hp3
          · intro he
            simp only [lookupT, hc]
            exact hp4 he
          · intro he
            refine ⟨(hp5 he).1, ?_⟩
            simp only [lookupT, hc]
            exact (hp5 he).2
          · intro he
            refine ⟨(hp6 he).1, ?_⟩
            simp only [lookupT, hc]
            exact (hp6 he).2
      · refine ⟨rec, by rw [hoffrec]; exact hfind,
          by simp only [tOffsets, List.mem_cons, List.mem_append]; exact Or.inl hoffrec,
          ?_, ?_, ?_, ?_⟩
        · simp [binSearch, hreadoff, hc]
        · intro _
          simp [lookupT, hc]
        · intro h2
          rw [hc] at h2
          cases h2
        · intro h2
          rw [hc] at h2
          cases h2
      · by_cases hright : rec.right = 0
        · have hrtip : r = BTree.tip := by
            rw [hright] at hr2
            exact rep_zero hr2
          refine ⟨rec, by rw [hoffrec]; exact hfind,
            by simp only [tOffsets, List.mem_cons, List.mem_append]; exact Or.inl hoffrec,
            ?_, ?_, ?_, ?_⟩
          · simp [binSearch, hreadoff, hc, hright]
          · intro h2
            rw [hc] at h2
            cases h2
          · intro h2
            rw [hc] at h2
            cases h2
          · intro _
            refine ⟨hright, ?_⟩
            simp [lookupT, hc, hrtip]
        · have hdr : depthT r < f := by
            simp only [depthT] at hfuel
            omega
          obtain ⟨p, hp1, hp2, hp3, hp4, hp5, hp6⟩ := ihr hr2 hright hdr
          refine ⟨p, hp1, ?_, ?_, ?_, ?_, ?_⟩
          · simp only [tOffsets, List.mem_cons, List.mem_append]
            exact Or.inr (Or.inr hp2)
          · rw [show binSearch file key o0 (f + 1) = binSearch file key rec.right f by
              simp [binSearch, hreadoff, hc, hright]]
            exact hp3
          · intro he
            simp only [lookupT, hc]
            exact hp4 he
          · intro he
            refine ⟨(hp5 he).1, ?_⟩
            simp only [lookupT, hc]
            exact (hp5 he).2
          · intro he
            refine ⟨(hp6 he).1, ?_⟩
            simp only [lookupT, hc]
            exact (hp6 he).2

theorem binSearch_insert {file key value : Bytes} {recs : List record}
    (hread : ∀ r ∈ recs, readRecord file r.offset = some r) :
    ∀ {t : BTree} {off fuel : Nat}, Rep recs off t → off ≠ 0 → depthT t < fuel →
      lookupT key t = none → (tOffsets t).Nodup →
      ∃ p : record, ∃ cmp : Ordering,
        binSearch file key off fuel = .found cmp p ∧
        findRec recs p.offset = some p ∧ p.offset ∈ tOffsets t ∧
        ((cmp = .lt ∧ bytesCompare key p.key = .lt ∧ p.left = 0) ∨
         (cmp = .gt ∧ bytesCompare key p.key = .gt ∧ p.right = 0)) ∧
        (∀ (newoff : Nat) (nr : record) (recs2 : List record),
          (∀ o ∈ tOffsets t, o ≠ p.offset → findRec recs2 o = findRec recs o) →
          findRec recs2 p.offset =
            some (if cmp = .lt then { p with left := newoff } else { p with right := newoff }) →
          findRec recs2 newoff = some nr →
          nr.key = key → nr.value = value → nr.left = 0 → nr.right = 0 →
          (∀ o ∈ tOffsets t, o < newoff) → newoff ≠ 0 →
          Rep recs2 off (insertT key value newoff t)) := by
  intro t
  induction t with
  | tip =>
    intro off fuel hrep hoff _ _ _
    cases hrep
    exact absurd rfl hoff
  | node o0 k0 v0 l r ihl ihr =>
    intro off fuel hrep hoff hfuel hnone hnd
    obtain ⟨rec, rfl, hfind, rfl, rfl, hl, hr2, hlo, hro⟩ := rep_node_inv hrep
    cases fuel with
    | zero => omega
    | succ f =>
      have hoffrec : rec.offset = o0 := (findRec_some hfind).2
      have hmem : rec ∈ recs := (findRec_some hfind).1
      have hreadoff : readRecord file o0 = some rec := by
        have h0 := hread rec hmem
        rwa [hoffrec] at h0
      have hndlr : (tOffsets l ++ tOffsets r).Nodup := by
        simp only [tOffsets, List.nodup_cons] at hnd
        exact hnd.2
      have hndl : (tOffsets l).Nodup := ((List.nodup_append.mp hndlr).1)
      have hndr : (tOffsets r).Nodup := ((List.nodup_append.mp hndlr).2.1)
      have hdisjlr : (tOffsets l).Disjoint (tOffsets r) := ((List.nodup_append.mp hndlr).2.2)
      rcases hc : bytesCompare key rec.key with _ | _ | _
      · simp only [lookupT, hc] at hnone
        by_cases hleft : rec.left = 0
        · have hltip : l = BTree.tip := by
            rw [hleft] at hl
            exact rep_zero hl
          subst hltip
          refine ⟨rec, .lt, ?_, by rw [hoffrec]; exact hfind,
            by simp only [tOffsets, List.mem_cons]; exact Or.inl hoffrec,
            Or.inl ⟨rfl, hc, hleft⟩, ?_⟩
          · simp [binSearch, hreadoff, hc, hleft]
          · intro newoff nr recs2 hsame hfp hfn hk hv hnl hnr hfresh hnz
            rw [if_pos rfl] at hfp
            have hfp2 : findRec recs2 o0 = some { rec with left := newoff } := by
              rw [← hoffrec]
              exact hfp
            simp only [insertT, hc]
            have hframe : ∀ o ∈ tOffsets r, findRec recs2 o = findRec recs o := by
              intro o ho
              have hrne : rec.right ≠ 0 := by
                intro h0
                rw [h0] at hr2
                rw [rep_zero hr2] at ho
                simp [tOffsets] at ho
              have hub := rep_offsets_lb hr2 o ho
              have hlt := hro hrne
              refine hsame o ?_ (by omega)
              simp only [tOffsets, List.mem_cons, List.mem_append, List.not_mem_nil,
                false_or]
              exact Or.inr ho
            refine @Rep.node recs2 o0 { rec with left := newoff } _ _ hfp2 hoff ?_ ?_ ?_ ?_
            · show Rep recs2 newoff _
              rw [← hk, ← hv]
              refine @Rep.node recs2 newoff nr BTree.tip BTree.tip hfn hnz ?_ ?_ ?_ ?_
              · rw [hnl]
                exact Rep.tip
              · rw [hnr]
                exact Rep.tip
              · rw [hnl]
                intro h0
                exact absurd rfl h0
              · rw [hnr]
                intro h0
                exact absurd rfl h0
            · show Rep recs2 rec.right r
              exact rep_frame hr2 hframe
            · intro _
              exact hfresh o0 (by simp [tOffsets])
            · exact hro
        · have hdl : depthT l < f := by
            simp only [depthT] at hfuel
            omega
          obtain ⟨p, cmp, hb, hp1, hp2, hdisj, hpatch⟩ := ihl hl hleft hdl hnone hndl
          have hpo_ge : rec.left ≤ p.offset := rep_offsets_lb hl p.offset hp2
          have hpo_gt : o0 < p.offset := by
            have := hlo hleft
            omega
          refine ⟨p, cmp, ?_, hp1, ?_, hdisj, ?_⟩
          · rw [show binSearch file key o0 (f + 1) = binSearch file key rec.left f by
              simp [binSearch, hreadoff, hc, hleft]]
            exact hb
          · simp only [tOffsets, List.mem_cons, List.mem_append]
            exact Or.inr (Or.inl hp2)
          · intro newoff nr recs2 hsame hfp hfn hk hv hnl hnr hfresh hnz
            simp only [insertT, hc]
            have hfind2 : findRec recs2 o0 = some rec := by
              rw [hsame o0 (by simp [tOffsets]) (by omega), hfind]
            have hframe : ∀ o ∈ tOffsets r, findRec recs2 o = findRec recs o := by
              intro o ho
              have hnp : o ≠ p.offset := fun he => hdisjlr hp2 (he ▸ ho)
              refine hsame o ?_ hnp
              simp only [tOffsets, List.mem_cons, List.mem_append]
              exact Or.inr (Or.inr ho)
            refine @Rep.node recs2 o0 rec _ _ hfind2 hoff ?_ ?_ ?_ ?_
            · show Rep recs2 rec.left _
              refine hpatch newoff nr recs2 ?_ hfp hfn hk hv hnl hnr ?_ hnz
              · intro o ho hop
                refine hsame o ?_ hop
                simp only [tOffsets, List.mem_cons, List.mem_append]
                exact Or.inr (Or.inl ho)
              · intro o ho
                refine hfresh o ?_
                simp only [tOffsets, List.mem_cons, List.mem_append]
                exact Or.inr (Or.inl ho)
            · show Rep recs2 rec.right r
              exact rep_frame hr2 hframe
            · exact hlo
            · exact hro
      · simp only [lookupT, hc] at hnone
        cases hnone
      · simp only [lookupT, hc] at hnone
        by_cases hright : rec.right = 0
        · have hrtip : r = BTree.tip := by
            rw [hright] at hr2
            exact rep_zero hr2
          subst hrtip
          refine ⟨rec, .gt, ?_, by rw [hoffrec]; exact hfind,
            by simp only [tOffsets, List.mem_cons]; exact Or.inl hoffrec,
            Or.inr ⟨rfl, hc, hright⟩, ?_⟩
          · simp [binSearch, hreadoff, hc, hright]
          · intro newoff nr recs2 hsame hfp hfn hk hv hnl hnr hfresh hnz
            rw [if_neg (by simp)] at hfp
            have hfp2 : findRec recs2 o0 = some { rec with right := newoff } := by
              rw [← hoffrec]
              exact hfp
            simp only [insertT, hc]
            have hframe : ∀ o ∈ tOffsets l, findRec recs2 o = findRec recs o := by
              intro o ho
              have hlne : rec.left ≠ 0 := by
                intro h0
                rw [h0] at hl
                rw [rep_zero hl] at ho
                simp [tOffsets] at ho
              have hub := rep_offsets_lb hl o ho
              have hlt := hlo hlne
              refine hsame o ?_ (by omega)
              simp only [tOffsets, List.mem_cons, List.mem_append]
              exact Or.inr (Or.inl ho)
            refine @Rep.node recs2 o0 { rec with right := newoff } _ _ hfp2 hoff ?_ ?_ ?_ ?_
            · show Rep recs2 rec.left l
              exact rep_frame hl hframe
            · show Rep recs2 newoff _
              rw [← hk, ← hv]
              refine @Rep.node recs2 newoff nr BTree.tip BTree.tip hfn hnz ?_ ?_ ?_ ?_
              · rw [hnl]
                exact Rep.tip
              · rw [hnr]
                exact Rep.tip
              · rw [hnl]
                intro h0
                exact absurd rfl h0
              · rw [hnr]
                intro h0
                exact absurd rfl h0
            · exact hlo
            · intro _
              exact hfresh o0 (by simp [tOffsets])
        · have hdr : depthT r < f := by
            simp only [depthT] at hfuel
            omega
          obtain ⟨p, cmp, hb, hp1, hp2, hdisj, hpatch⟩ := ihr hr2 hright hdr hnone hndr
          have hpo_ge : rec.right ≤ p.offset := rep_offsets_lb hr2 p.offset hp2
          have hpo_gt : o0 < p.offset := by
            have := hro hright
            omega
          refine ⟨p, cmp, ?_, hp1, ?_, hdisj, ?_⟩
          · rw [show binSearch file key o0 (f + 1) = binSearch file key rec.right f by
              simp [binSearch, hreadoff, hc, hright]]
            exact hb
          · simp only [tOffsets, List.mem_cons, List.mem_append]
            exact Or.inr (Or.inr hp2)
          · intro newoff nr recs2 hsame hfp hfn hk hv hnl hnr hfresh hnz
            simp only [insertT, hc]
            have hfind2 : findRec recs2 o0 = some rec := by
              rw [hsame o0 (by simp [tOffsets]) (by omega), hfind]
            have hframe : ∀ o ∈ tOffsets l, findRec recs2 o = findRec recs o := by
              intro o ho
              have hnp : o ≠ p.offset := fun he => hdisjlr (he ▸ ho) hp2
              refine hsame o ?_ hnp
              simp only [tOffsets, List.mem_cons, List.mem_append]
              exact Or.inr (Or.inl ho)
            refine @Rep.node recs2 o0 rec _ _ hfind2 hoff ?_ ?_ ?_ ?_
            · show Rep recs2 rec.left l
              exact rep_frame hl hframe
            · show Rep recs2 rec.right _
              refine hpatch newoff nr recs2 ?_ hfp hfn hk hv hnl hnr ?_ hnz
              · intro o ho hop
                refine hsame o ?_ hop
                simp only [tOffsets, List.mem_cons, List.mem_append]
                exact Or.inr (Or.inr ho)
              · intro o ho
                refine hfresh o ?_
                simp only [tOffsets, List.mem_cons, List.mem_append]
                exact Or.inr (Or.inr ho)
            · exact hlo
            · exact hro

/-! ## The record log layout -/

/-- Total allocated size of a list of records. -/
def sumSizes (recs : List record) : Nat := (recs.map record.size).sum

/-- `Layout n recs`: the records sit back to back starting at offset `n`, each
occupying exactly its allocated size. -/
def Layout : Nat → List record → Prop
  | _, [] => True
  | n, r :: rs => r.offset = n ∧ Layout (n + r.size) rs

/-- The byte image of the record log. -/
def joinEnc (recs : List record) : Bytes := (recs.map encodeRecord).flatten

theorem length_joinEnc (recs : List record) : (joinEnc recs).length = sumSizes recs := by
  induction recs with
  | nil => rfl
  | cons r rs ih =>
    simp only [joinEnc, sumSizes, List.map_cons, List.flatten_cons, List.length_append,
      length_encodeRecord, List.sum_cons] at ih ⊢
    omega

theorem layout_bounds : ∀ {recs : List record} {n : Nat}, Layout n recs →
    ∀ r ∈ recs, n ≤ r.offset ∧ r.offset + r.size ≤ n + sumSizes recs := by
  intro recs
  induction recs with
  | nil => simp
  | cons q rs ih =>
    intro n hlay r hr
    obtain ⟨hq, hrest⟩ := hlay
    simp only [sumSizes, List.map_cons, List.sum_cons]
    rcases List.mem_cons.mp hr with rfl | hr2
    · omega
    · have h2 := ih hrest r hr2
      simp only [sumSizes] at h2
      omega

theorem layout_read : ∀ {recs : List record} {pre : Bytes}, Layout pre.length recs →
    (∀ r ∈ recs, WfRec r) → ∀ r ∈ recs, readRecord (pre ++ joinEnc recs) r.offset = some r := by
  intro recs
  induction recs with
  | nil => simp
  | cons q rs ih =>
    intro pre hlay hwf r hr
    obtain ⟨hq, hrest⟩ := hlay
    have hjoin : joinEnc (q :: rs) = encodeRecord q ++ joinEnc rs := by
      simp [joinEnc]
    rcases List.mem_cons.mp hr with rfl | hr2
    · rw [hjoin, hq]
      rw [readRecord_encode pre (joinEnc rs) r (hwf r hr)]
      rw [← hq]
    · have hassoc : pre ++ joinEnc (q :: rs) = (pre ++ encodeRecord q) ++ joinEnc rs := by
        rw [hjoin, List.append_assoc]
      have hlen2 : (pre ++ encodeRecord q).length = pre.length + q.size := by
        simp [length_encodeRecord]
      rw [hassoc]
      refine ih ?_ (fun r2 hr2m => hwf r2 (List.mem_cons_of_mem q hr2m)) r hr2
      rw [hlen2]
      exact hrest

theorem writeAt_append_right (a b data : Bytes) (off : Nat) (h : a.length ≤ off) :
    writeAt (a ++ b) off data = a ++ writeAt b (off - a.length) data := by
  unfold writeAt
  rw [List.take_append_eq_append_take, List.take_of_length_le h,
    List.drop_append_eq_append_drop, List.drop_eq_nil_of_le (by omega),
    List.length_append, List.nil_append,
    show off - (a.length + b.length) = off - a.length - b.length by omega,
    show off + data.length - a.length = off - a.length + data.length by omega]
  simp [List.append_assoc]

theorem updateRec_id : ∀ {recs : List record} {p : record},
    (∀ r ∈ recs, r.offset ≠ p.offset) → updateRec recs p = recs := by
  intro recs p
  induction recs with
  | nil => intro _; rfl
  | cons q rs ih =>
    intro h
    unfold updateRec at ih ⊢
    rw [List.map_cons, if_neg (h q (List.mem_cons_self _ _)),
      ih fun r hr => h r (List.mem_cons_of_mem q hr)]

theorem mem_updateRec {recs : List record} {p r2 : record} (h : r2 ∈ updateRec recs p) :
    r2 = p ∨ r2 ∈ recs := by
  unfold updateRec at h
  obtain ⟨r, hr, heq⟩ := List.mem_map.mp h
  by_cases hc : r.offset = p.offset
  · rw [if_pos hc] at heq
    exact Or.inl heq.symm
  · rw [if_neg hc] at heq
    exact Or.inr (heq ▸ hr)

theorem layout_updateRec : ∀ {recs : List record} {n : Nat} {p : record}, Layout n recs →
    (∀ r ∈ recs, r.offset = p.offset → r.size = p.size) → Layout n (updateRec recs p) := by
  intro recs
  induction recs with
  | nil => intro n p _ _; trivial
  | cons q rs ih =>
    intro n p hlay hsz
    obtain ⟨hq, hrest⟩ := hlay
    unfold updateRec
    rw [List.map_cons]
    by_cases hc : q.offset = p.offset
    · rw [if_pos hc]
      have hsq : q.size = p.size := hsz q (List.mem_cons_self _ _) hc
      refine ⟨by rw [← hc, hq], ?_⟩
      have h2 := ih hrest fun r hr he => hsz r (List.mem_cons_of_mem q hr) he
      unfold updateRec at h2
      rw [← hsq]
      exact h2
    · rw [if_neg hc]
      exact ⟨hq, ih hrest fun r hr he => hsz r (List.mem_cons_of_mem q hr) he⟩

theorem joinEnc_update : ∀ {recs : List record} {pre : Bytes} {p2 : record},
    Layout pre.length recs →
    (∀ r ∈ recs, 0 < r.size) →
    (∀ r ∈ recs, r.offset = p2.offset → r.size = p2.size) →
    (∃ q ∈ recs, q.offset = p2.offset) →
    writeAt (pre ++ joinEnc recs) p2.offset (encodeRecord p2) =
      pre ++ joinEnc (updateRec recs p2) := by
  intro recs
  induction recs with
  | nil => simp
  | cons q rs ih =>
    intro pre p2 hlay hpos hsz hex
    obtain ⟨hq, hrest⟩ := hlay
    have hjoin : joinEnc (q :: rs) = encodeRecord q ++ joinEnc rs := by
      simp [joinEnc]
    unfold updateRec
    rw [List.map_cons]
    by_cases hc : q.offset = p2.offset
    · rw [if_pos hc]
      have hsq : q.size = p2.size := hsz q (List.mem_cons_self _ _) hc
      have hupd : updateRec rs p2 = rs := by
        apply updateRec_id
        intro r hr
        have hb := (layout_bounds hrest r hr).1
        have hqpos := hpos q (List.mem_cons_self _ _)
        intro he
        rw [he, ← hc, hq] at hb
        omega
      have hlens : (encodeRecord p2).length = (encodeRecord q).length := by
        rw [length_encodeRecord, length_encodeRecord, hsq]
      have hwa : writeAt (pre ++ (encodeRecord q ++ joinEnc rs)) p2.offset (encodeRecord p2) =
          pre ++ (encodeRecord p2 ++ joinEnc rs) := by
        rw [← hc, hq]
        exact writeAt_replace pre (encodeRecord q) (encodeRecord p2) (joinEnc rs) hlens
      unfold updateRec at hupd
      rw [hjoin, hwa, hupd]
      simp [joinEnc]
    · rw [if_neg hc]
      obtain ⟨q2, hq2mem, hq2off⟩ := hex
      have hq2tl : q2 ∈ rs := by
        rcases List.mem_cons.mp hq2mem with rfl | h2
        · exact absurd hq2off hc
        · exact h2
      have hoffge : pre.length + q.size ≤ p2.offset := by
        have := (layout_bounds hrest q2 hq2tl).1
        omega
      have hassoc : pre ++ joinEnc (q :: rs) = (pre ++ encodeRecord q) ++ joinEnc rs := by
        rw [hjoin, List.append_assoc]
      have hlen2 : (pre ++ encodeRecord q).length = pre.length + q.size := by
        simp [length_encodeRecord]
      rw [hassoc]
      have hih := @ih (pre ++ encodeRecord q) p2 (by rw [hlen2]; exact hrest)
        (fun r hr => hpos r (List.mem_cons_of_mem q hr))
        (fun r hr he => hsz r (List.mem_cons_of_mem q hr) he) ⟨q2, hq2tl, hq2off⟩
      rw [hih]
      unfold updateRec
      simp [joinEnc, List.append_assoc]

/-! ## Correctness of the bit-smearing `nextPowerTwo` -/

theorem testBit_or_shift (a w i : Nat) :
    (a ||| a >>> w).testBit i = (a.testBit i || a.testBit (i + w)) := by
  rw [Nat.testBit_or, Nat.testBit_shiftRight, Nat.add_comm w i]

theorem cover_step {a n w : Nat}
    (h : ∀ i, a.testBit i = true ↔ ∃ j, i ≤ j ∧ j < i + w ∧ n.testBit j = true) :
    ∀ i, (a ||| a >>> w).testBit i = true ↔
      ∃ j, i ≤ j ∧ j < i + (w + w) ∧ n.testBit j = true := by
  intro i
  rw [testBit_or_shift]
  constructor
  · intro hb
    rcases Bool.or_eq_true_iff.mp hb with hb1 | hb2
    · obtain ⟨j, h1, h2, h3⟩ := (h i).mp hb1
      exact ⟨j, h1, by omega, h3⟩
    · obtain ⟨j, h1, h2, h3⟩ := (h (i + w)).mp hb2
      exact ⟨j, by omega, by omega, h3⟩
  · rintro ⟨j, h1, h2, h3⟩
    by_cases hj : j < i + w
    · exact Bool.or_eq_true_iff.mpr (Or.inl ((h i).mpr ⟨j, h1, hj, h3⟩))
    · exact Bool.or_eq_true_iff.mpr (Or.inr ((h (i + w)).mpr ⟨j, by omega, by omega, h3⟩))

theorem smear_testBit (n : Nat) :
    ∀ i, (([1, 2, 4, 8, 16, 32, 64].foldl (fun a i => a ||| (a >>> i)) n).testBit i = true ↔
      ∃ j, i ≤ j ∧ j < i + 128 ∧ n.testBit j = true) := by
  have h0 : ∀ i, n.testBit i = true ↔ ∃ j, i ≤ j ∧ j < i + 1 ∧ n.testBit j = true := by
    intro i
    constructor
    · intro hb
      exact ⟨i, Nat.le_refl i, by omega, hb⟩
    · rintro ⟨j, h1, h2, h3⟩
      have : j = i := by omega
      rwa [this] at h3
  have h1 := cover_step h0
  have h2 := cover_step h1
  have h3 := cover_step h2
  have h4 := cover_step h3
  have h5 := cover_step h4
  have h6 := cover_step h5
  have h7 := cover_step h6
  simpa [List.foldl] using h7

theorem testBit_log2 {n : Nat} (h : n ≠ 0) : n.testBit n.log2 = true := by
  rw [Nat.testBit_to_div_mod]
  have hdiv : n / 2 ^ n.log2 = 1 := by
    apply Nat.div_eq_of_lt_le
    · simpa using Nat.log2_self_le h
    · have := @Nat.lt_log2_self n
      rw [Nat.pow_succ] at this
      omega
  rw [hdiv]
  simp

/-- The heart of the claim about `nextPowerTwo`: on inputs `1 ≤ x ≤ 2 ^ 31`
it returns the least power of two that is at least `x`. -/
theorem nextPowerTwo_correct (x : Nat) (h1 : 1 ≤ x) (h2 : x ≤ 2 ^ 31) :
    (∃ e, nextPowerTwo x = 2 ^ e) ∧ x ≤ nextPowerTwo x ∧
      (∀ p, (∃ e, p = 2 ^ e) → x ≤ p → nextPowerTwo x ≤ p) := by
  rcases Nat.lt_or_ge x 2 with hx1 | hx2
  · have hx : x = 1 := by omega
    subst hx
    refine ⟨⟨0, by decide⟩, by decide, ?_⟩
    intro p ⟨e, hpe⟩ hp
    have : 1 ≤ p := hp
    have : nextPowerTwo 1 = 1 := by decide
    omega
  · set n := x - 1 with hn
    have hn1 : 1 ≤ n := by omega
    have hn31 : n < 2 ^ 31 := by omega
    set L := n.log2 + 1 with hL
    have hlogle : 2 ^ n.log2 ≤ n := Nat.log2_self_le (by omega)
    have hloglt : n < 2 ^ L := Nat.lt_log2_self
    have hLle : L ≤ 31 := by
      have hlt : n.log2 < 31 := by
        by_contra hcon
        push_neg at hcon
        have : (2 : Nat) ^ 31 ≤ 2 ^ n.log2 := Nat.pow_le_pow_right (by omega) hcon
        omega
      omega
    have hsmear : [1, 2, 4, 8, 16, 32, 64].foldl (fun a i => a ||| (a >>> i)) n =
        2 ^ L - 1 := by
      apply Nat.eq_of_testBit_eq
      intro i
      rw [Nat.testBit_two_pow_sub_one]
      by_cases hi : i < L
      · rw [decide_eq_true hi]
        apply (smear_testBit n i).mpr
        refine ⟨n.log2, by omega, by omega, testBit_log2 (by omega)⟩
      · rw [decide_eq_false hi]
        cases hb : ([1, 2, 4, 8, 16, 32, 64].foldl (fun a i => a ||| (a >>> i)) n).testBit i
        · rfl
        · exfalso
          obtain ⟨j, hj1, hj2, hj3⟩ := (smear_testBit n i).mp hb
          have hge := Nat.testBit_implies_ge hj3
          have : (2 : Nat) ^ i ≤ 2 ^ j := Nat.pow_le_pow_right (by omega) hj1
          have : (2 : Nat) ^ L ≤ 2 ^ i := Nat.pow_le_pow_right (by omega) (by omega)
          omega
    have hnpt : nextPowerTwo x = 2 ^ L := by
      unfold nextPowerTwo
      rw [if_neg (by omega)]
      dsimp only
      rw [← hn, hsmear]
      have hpow : (2 : Nat) ^ L ≤ 2 ^ 31 := Nat.pow_le_pow_right (by omega) hLle
      have hpos : 0 < (2 : Nat) ^ L := Nat.pos_pow_of_pos L (by omega)
      rw [Nat.sub_add_cancel hpos]
      apply Nat.mod_eq_of_lt
      have : (2 : Nat) ^ 31 < 2 ^ 32 := by norm_num
      omega
    rw [hnpt]
    refine ⟨⟨L, rfl⟩, by omega, ?_⟩
    intro p ⟨e, hpe⟩ hp
    subst hpe
    have : (2 : Nat) ^ n.log2 < 2 ^ e := by omega
    have hlte : n.log2 < e := (Nat.pow_lt_pow_iff_right (by omega)).mp this
    exact Nat.pow_le_pow_right (by omega) (by omega)

/-! ## Range of the bucket index -/

theorem shiftRight_allones {s : Nat} (hs : s ≤ 64) :
    (2 ^ 64 - 1) >>> s = 2 ^ (64 - s) - 1 := by
  rw [Nat.shiftRight_eq_div_pow]
  have hab : 2 ^ s * 2 ^ (64 - s) = 2 ^ 64 := by
    rw [← Nat.pow_add]
    congr 1
    omega
  apply Nat.div_eq_of_lt_le
  · rw [Nat.sub_mul, Nat.one_mul, Nat.mul_comm]
    have h1 : 1 ≤ (2 : Nat) ^ s := Nat.one_le_two_pow
    omega
  · rw [Nat.sub_add_cancel Nat.one_le_two_pow, Nat.mul_comm]
    omega

theorem bucketFromSum_lt (B : Nat) (sum : Bytes) : bucketFromSum B sum < 2 ^ B := by
  unfold bucketFromSum
  dsimp only
  have hpos : 0 < (2 : Nat) ^ B := Nat.pos_pow_of_pos B (by omega)
  by_cases hm0 : B % 2 ^ 32 = 0
  · rw [hm0]
    have hs : (64 + 2 ^ 32 - 0) % 2 ^ 32 = 64 := by omega
    rw [hs, shiftRight_allones (by omega)]
    have : (2 : Nat) ^ (64 - 64) - 1 = 0 := by norm_num
    rw [this, Nat.and_zero]
    exact hpos
  · by_cases hm64 : B % 2 ^ 32 ≤ 64
    · have hs : (64 + 2 ^ 32 - B % 2 ^ 32) % 2 ^ 32 = 64 - B % 2 ^ 32 := by omega
      rw [hs, shiftRight_allones (by omega)]
      have he : 64 - (64 - B % 2 ^ 32) = B % 2 ^ 32 := by omega
      rw [he]
      have h1 := @Nat.and_le_right
        (([0, 1, 2, 3, 4, 5, 6, 7].foldl (fun acc i => acc ||| (sum.getD i 0 <<< (8 * i)) % 256) 0))
        (2 ^ (B % 2 ^ 32) - 1)
      have h2 : (2 : Nat) ^ (B % 2 ^ 32) ≤ 2 ^ B :=
        Nat.pow_le_pow_right (by omega) (Nat.mod_le B _)
      have h3 := @Nat.and_le_right
        ((List.range 8).foldl (fun acc i => acc ||| (sum.getD i 0 <<< (8 * i)) % 256) 0)
        (2 ^ (B % 2 ^ 32) - 1)
      omega
    · have hmlt : B % 2 ^ 32 < 2 ^ 32 := Nat.mod_lt B (by norm_num)
      have hs : (64 + 2 ^ 32 - B % 2 ^ 32) % 2 ^ 32 = 64 + 2 ^ 32 - B % 2 ^ 32 := by omega
      rw [hs]
      have hz : (2 ^ 64 - 1) >>> (64 + 2 ^ 32 - B % 2 ^ 32) = 0 := by
        rw [Nat.shiftRight_eq_div_pow]
        apply Nat.div_eq_of_lt
        have : (2 : Nat) ^ 64 ≤ 2 ^ (64 + 2 ^ 32 - B % 2 ^ 32) :=
          Nat.pow_le_pow_right (by omega) (by omega)
        omega
      rw [hz, Nat.and_zero]
      exact hpos

theorem bucket_lt (B : Nat) (key : Bytes) : bucket B key < 2 ^ B :=
  bucketFromSum_lt B (md5 key)

/-! ## The state invariant -/

theorem getD_set_ne : ∀ (l : List Nat) (i j a : Nat), i ≠ j →
    (l.set i a).getD j 0 = l.getD j 0 := by
  intro l
  induction l with
  | nil => intro i j a _; rfl
  | cons x xs ih =>
    intro i j a hij
    cases i with
    | zero =>
      cases j with
      | zero => exact absurd rfl hij
      | succ j2 => rfl
    | succ i2 =>
      cases j with
      | zero => rfl
      | succ j2 => exact ih i2 j2 a (fun he => hij (by rw [he]))

theorem getD_set_self : ∀ (l : List Nat) (i a : Nat), i < l.length →
    (l.set i a).getD i 0 = a := by
  intro l
  induction l with
  | nil => intro i a h; simp at h
  | cons x xs ih =>
    intro i a h
    cases i with
    | zero => rfl
    | succ i2 => exact ih i2 a (by simpa using h)

theorem length_flatten_be64 : ∀ l : List Nat, ((l.map be64).flatten).length = 8 * l.length := by
  intro l
  induction l with
  | nil => rfl
  | cons x xs ih =>
    simp only [List.map_cons, List.flatten_cons, List.length_append, length_be64,
      List.length_cons]
    omega

theorem length_dirBytes (B : Nat) (buckets : List Nat) (h : buckets.length = 2 ^ B) :
    (dirBytes B buckets).length = dirLen B := by
  unfold dirBytes dirLen
  rw [List.length_append, length_be32, length_flatten_be64, h]

/-- The record appended by `Set` for a given state and key/value pair. -/
def newRecord (db : HashDB) (key value : Bytes) : record :=
  { offset := db.file.length, size := nextPowerTwo ((28 + key.length + value.length) % 2 ^ 32),
    left := 0, right := 0, key := key, value := value }

/-- The abstract map update performed by `Set`: a first insertion appends the
binding, re-inserting an existing key leaves the map unchanged (the reference
engine has no update path). -/
def insertModel (m : List (Bytes × Bytes)) (key value : Bytes) : List (Bytes × Bytes) :=
  if key ∈ m.map Prod.fst then m else m ++ [(key, value)]

/-- The full state invariant: the directory mirrors the file header, records
sit back to back after the directory, every bucket root leads to a
well-formed binary search tree whose entries are exactly the bindings of the
abstract map `m` hashing to that bucket, distinct buckets use disjoint record
sets, and all child links point forward in the file. -/
structure DBInv (db : HashDB) (recs : List record) (m : List (Bytes × Bytes)) : Prop where
  hbuckets : db.buckets.length = 2 ^ db.nbuckets
  hfile : db.file = dirBytes db.nbuckets db.buckets ++ joinEnc recs
  hlayout : Layout (dirLen db.nbuckets) recs
  hwf : ∀ r ∈ recs, WfRec r
  hlinks : ∀ r ∈ recs,
    (r.left = 0 ∨ (r.offset < r.left ∧ ∃ q ∈ recs, q.offset = r.left)) ∧
    (r.right = 0 ∨ (r.offset < r.right ∧ ∃ q ∈ recs, q.offset = r.right))
  htree : ∀ i, i < 2 ^ db.nbuckets → ∃ t, Rep recs (db.buckets.getD i 0) t ∧ ST t ∧
    (tOffsets t).Nodup ∧ ∀ e ∈ entriesT t, bucket db.nbuckets e.1 = i ∧ e ∈ m
  hmem : ∀ e ∈ m, ∃ t, Rep recs (db.buckets.getD (bucket db.nbuckets e.1) 0) t ∧
    e ∈ entriesT t
  hnodup : (m.map Prod.fst).Nodup
  hdisj : ∀ i j ti tj, i ≠ j → Rep recs (db.buckets.getD i 0) ti →
    Rep recs (db.buckets.getD j 0) tj → ∀ o ∈ tOffsets ti, o ∉ tOffsets tj

theorem inv_file_length {db : HashDB} {recs : List record} {m : List (Bytes × Bytes)}
    (hI : DBInv db recs m) : db.file.length = dirLen db.nbuckets + sumSizes recs := by
  rw [hI.hfile, List.length_append, length_dirBytes _ _ hI.hbuckets, length_joinEnc]

theorem inv_read {db : HashDB} {recs : List record} {m : List (Bytes × Bytes)}
    (hI : DBInv db recs m) : ∀ r ∈ recs, readRecord db.file r.offset = some r := by
  intro r hr
  rw [hI.hfile]
  refine layout_read ?_ hI.hwf r hr
  rw [length_dirBytes _ _ hI.hbuckets]
  exact hI.hlayout

theorem inv_offsets_lt {db : HashDB} {recs : List record} {m : List (Bytes × Bytes)}
    (hI : DBInv db recs m) : ∀ r ∈ recs, r.offset < db.file.length := by
  intro r hr
  have hb := layout_bounds hI.hlayout r hr
  have hwfr := hI.hwf r hr
  have := hwfr.hsz
  rw [inv_file_length hI]
  omega

theorem create_inv (B : Nat) : DBInv (Create B) [] [] := by
  have hfile : (Create B).file = dirBytes B (List.replicate (2 ^ B) 0) := by
    unfold Create writeBuckets writeAt
    simp
  have hbk : (Create B).buckets = List.replicate (2 ^ B) 0 := rfl
  have hnb : (Create B).nbuckets = B := rfl
  refine ⟨?_, ?_, ?_, ?_, ?_, ?_, ?_, ?_, ?_⟩
  · rw [hbk, hnb, List.length_replicate]
  · rw [hfile, hnb, hbk]
    simp [joinEnc]
  · trivial
  · simp
  · simp
  · intro i _
    refine ⟨BTree.tip, ?_, trivial, List.nodup_nil, by simp [entriesT]⟩
    rw [hbk]
    have : (List.replicate (2 ^ B) (0 : Nat)).getD i 0 = 0 := by
      rcases Nat.lt_or_ge i (2 ^ B) with h | h
      · rw [List.getD_eq_getElem _ _ (by simpa using h)]
        simp
      · rw [List.getD_eq_default]
        simpa using h
    rw [this]
    exact Rep.tip
  · simp
  · simp
  · intro i j ti tj hij hti htj o hoi
    have hzi : (Create B).buckets.getD i 0 = 0 := by
      rw [hbk]
      rcases Nat.lt_or_ge i (2 ^ B) with h | h
      · rw [List.getD_eq_getElem _ _ (by simpa using h)]
        simp
      · rw [List.getD_eq_default]
        simpa using h
    rw [hzi] at hti
    rw [rep_zero hti] at hoi
    simp [tOffsets] at hoi

theorem layout_append : ∀ {recs : List record} {n : Nat} {x : record}, Layout n recs →
    x.offset = n + sumSizes recs → Layout n (recs ++ [x]) := by
  intro recs
  induction recs with
  | nil =>
    intro n x _ hx
    refine ⟨?_, trivial⟩
    simp only [sumSizes, List.map_nil, List.sum_nil] at hx
    omega
  | cons q rs ih =>
    intro n x hlay hx
    obtain ⟨hq, hrest⟩ := hlay
    refine ⟨hq, ih hrest ?_⟩
    simp only [sumSizes, List.map_cons, List.sum_cons] at hx ⊢
    omega

theorem layout_offset_inj : ∀ {recs : List record} {n : Nat}, Layout n recs →
    (∀ r ∈ recs, 0 < r.size) → ∀ r1 ∈ recs, ∀ r2 ∈ recs, r1.offset = r2.offset → r1 = r2 := by
  intro recs
  induction recs with
  | nil => simp
  | cons q rs ih =>
    intro n hlay hpos r1 h1 r2 h2 heq
    obtain ⟨hq, hrest⟩ := hlay
    have hqpos := hpos q (List.mem_cons_self _ _)
    rcases List.mem_cons.mp h1 with rfl | h1t
    · rcases List.mem_cons.mp h2 with rfl | h2t
      · rfl
      · have := (layout_bounds hrest r2 h2t).1
        rw [heq] at hq
        omega
    · rcases List.mem_cons.mp h2 with rfl | h2t
      · have := (layout_bounds hrest r1 h1t).1
        rw [← heq] at hq
        omega
      · exact ih hrest (fun r hr => hpos r (List.mem_cons_of_mem q hr)) r1 h1t r2 h2t heq

theorem sumSizes_updateRec : ∀ {recs : List record} {p : record},
    (∀ r ∈ recs, r.offset = p.offset → r.size = p.size) →
    sumSizes (updateRec recs p) = sumSizes recs := by
  intro recs
  induction recs with
  | nil => intro p _; rfl
  | cons q rs ih =>
    intro p h
    unfold updateRec at ih ⊢
    rw [List.map_cons]
    by_cases hc : q.offset = p.offset
    · rw [if_pos hc]
      simp only [sumSizes, List.map_cons, List.sum_cons] at ih ⊢
      rw [ih fun r hr he => h r (List.mem_cons_of_mem q hr) he,
        h q (List.mem_cons_self _ _) hc]
    · rw [if_neg hc]
      simp only [sumSizes, List.map_cons, List.sum_cons] at ih ⊢
      rw [ih fun r hr he => h r (List.mem_cons_of_mem q hr) he]

theorem mem_updateRec_of_ne {recs : List record} {p q : record} (hq : q ∈ recs)
    (hne : q.offset ≠ p.offset) : q ∈ updateRec recs p := by
  unfold updateRec
  refine List.mem_map.mpr ⟨q, hq, ?_⟩
  rw [if_neg hne]

theorem updateRec_offset_cover {recs : List record} {p q : record} (hq : q ∈ recs) :
    ∃ q2 ∈ updateRec recs p, q2.offset = q.offset := by
  by_cases hc : q.offset = p.offset
  · refine ⟨p, ?_, hc.symm⟩
    unfold updateRec
    exact List.mem_map.mpr ⟨q, hq, by rw [if_pos hc]⟩
  · exact ⟨q, mem_updateRec_of_ne hq hc, rfl⟩

theorem updateRec_mem_self {recs : List record} {p q : record} (hq : q ∈ recs)
    (he : q.offset = p.offset) : p ∈ updateRec recs p := by
  unfold updateRec
  exact List.mem_map.mpr ⟨q, hq, by rw [if_pos he]⟩

theorem nodup_insertT {k v : Bytes} {newoff : Nat} :
    ∀ {t : BTree}, (tOffsets t).Nodup → (∀ o ∈ tOffsets t, o < newoff) →
      (tOffsets (insertT k v newoff t)).Nodup := by
  intro t
  induction t with
  | tip =>
    intro _ _
    simp [insertT, tOffsets]
  | node o0 k0 v0 l r ihl ihr =>
    intro hnd hfresh
    simp only [tOffsets, List.nodup_cons, List.nodup_append, List.mem_append] at hnd
    have ho0 := hnd.1
    have hndl := hnd.2.1
    have hndr := hnd.2.2.1
    have hdisj := hnd.2.2.2
    have ho0fresh : o0 < newoff := hfresh o0 (by simp [tOffsets])
    have hlfresh : ∀ o ∈ tOffsets l, o < newoff := by
      intro o ho
      refine hfresh o ?_
      simp only [tOffsets, List.mem_cons, List.mem_append]
      exact Or.inr (Or.inl ho)
    have hrfresh : ∀ o ∈ tOffsets r, o < newoff := by
      intro o ho
      refine hfresh o ?_
      simp only [tOffsets, List.mem_cons, List.mem_append]
      exact Or.inr (Or.inr ho)
    unfold insertT
    rcases bytesCompare k k0 with _ | _ | _
    · simp only [tOffsets, List.nodup_cons, List.nodup_append, List.mem_append]
      refine ⟨?_, ⟨ihl hndl hlfresh, hndr, ?_⟩⟩
      · intro hmem
        rcases hmem with hm | hm
        · rcases tOffsets_insertT hm with h2 | h2
          · exact ho0 (Or.inl h2)
          · omega
        · exact ho0 (Or.inr hm)
      · intro a ha
        rcases tOffsets_insertT ha with h2 | h2
        · exact hdisj h2
        · subst h2
          intro hc
          have := hrfresh a hc
          omega
    · simp only [tOffsets, List.nodup_cons, List.nodup_append, List.mem_append]
      exact ⟨fun hm => ho0 hm, hndl, hndr, hdisj⟩
    · simp only [tOffsets, List.nodup_cons, List.nodup_append, List.mem_append]
      refine ⟨?_, ⟨hndl, ihr hndr hrfresh, ?_⟩⟩
      · intro hmem
        rcases hmem with hm | hm
        · exact ho0 (Or.inl hm)
        · rcases tOffsets_insertT hm with h2 | h2
          · exact ho0 (Or.inr h2)
          · omega
      · intro a ha hc
        rcases tOffsets_insertT hc with h2 | h2
        · exact hdisj ha h2
        · subst h2
          have := hlfresh a ha
          omega

theorem rep_append {recs l2 : List record} {off : Nat} {t : BTree} (h : Rep recs off t) :
    Rep (recs ++ l2) off t := by
  refine rep_frame h ?_
  intro o ho
  obtain ⟨r, hr⟩ := rep_found h o ho
  rw [findRec_append_left hr, hr]

theorem tree_offsets_lt {db : HashDB} {recs : List record} {m : List (Bytes × Bytes)}
    (hI : DBInv db recs m) {off : Nat} {t : BTree} (h : Rep recs off t) :
    ∀ o ∈ tOffsets t, o < db.file.length := by
  intro o ho
  obtain ⟨r, hr⟩ := rep_found h o ho
  obtain ⟨hmem, hoff⟩ := findRec_some hr
  have := inv_offsets_lt hI r hmem
  omega

theorem inv_fuel {db : HashDB} {recs : List record} {m : List (Bytes × Bytes)}
    (hI : DBInv db recs m) {off : Nat} {t : BTree} (hrep : Rep recs off t) (hoff : off ≠ 0) :
    depthT t < db.file.length + 1 := by
  have h := rep_depth_le (inv_offsets_lt hI) hrep hoff
  omega

theorem lookup_none_of_absent {db : HashDB} {recs : List record} {m : List (Bytes × Bytes)}
    {key : Bytes} {t : BTree}
    (hI : DBInv db recs m) (habs : key ∉ m.map Prod.fst)
    (hrep : Rep recs (db.buckets.getD (bucket db.nbuckets key) 0) t)
    (hent : ∀ e ∈ entriesT t, bucket db.nbuckets e.1 = bucket db.nbuckets key ∧ e ∈ m) :
    lookupT key t = none := by
  cases hl : lookupT key t with
  | none => rfl
  | some v =>
    exfalso
    have hmemt := lookupT_mem hl
    have hm := (hent (key, v) hmemt).2
    exact habs (List.mem_map.mpr ⟨(key, v), hm, rfl⟩)

/-! ## `Get` correctness -/

theorem get_found {db : HashDB} {recs : List record} {m : List (Bytes × Bytes)}
    {k v : Bytes} (hI : DBInv db recs m) (hkv : (k, v) ∈ m) : Get db k = .found v := by
  obtain ⟨t0, hrep0, hent0⟩ := hI.hmem (k, v) hkv
  have hroot : db.buckets.getD (bucket db.nbuckets k) 0 ≠ 0 := by
    intro h0
    rw [h0] at hrep0
    rw [rep_zero hrep0] at hent0
    simp [entriesT] at hent0
  obtain ⟨t, hrep, hst, hnd, hent⟩ := hI.htree (bucket db.nbuckets k) (bucket_lt _ _)
  have hteq : t0 = t := rep_unique hrep0 hrep
  subst hteq
  have hlook : lookupT k t0 = some v := mem_lookupT hst hent0
  obtain ⟨p, hp1, hp2, hp3, hp4, hp5, hp6⟩ :=
    @binSearch_found _ k _ (inv_read hI) _ _ _ hrep hroot (inv_fuel hI hrep hroot)
  rcases hcmp : bytesCompare k p.key with _ | _ | _
  · have h2 := (hp5 hcmp).2
    rw [hlook] at h2
    cases h2
  · have hv : p.value = v := by
      have h2 := hp4 hcmp
      rw [hlook] at h2
      exact (Option.some_injective _ h2).symm
    rw [hcmp] at hp3
    unfold Get
    dsimp only
    rw [if_neg hroot, hp3]
    show GetResult.found p.value = GetResult.found v
    rw [hv]
  · have h2 := (hp6 hcmp).2
    rw [hlook] at h2
    cases h2

theorem get_absent {db : HashDB} {recs : List record} {m : List (Bytes × Bytes)}
    {k : Bytes} (hI : DBInv db recs m) (habs : k ∉ m.map Prod.fst) : Get db k = .notFound := by
  by_cases hroot : db.buckets.getD (bucket db.nbuckets k) 0 = 0
  · unfold Get
    dsimp only
    rw [if_pos hroot]
  · obtain ⟨t, hrep, hst, hnd, hent⟩ := hI.htree (bucket db.nbuckets k) (bucket_lt _ _)
    have hlook : lookupT k t = none := lookup_none_of_absent hI habs hrep fun e he => hent e he
    obtain ⟨p, hp1, hp2, hp3, hp4, hp5, hp6⟩ :=
      @binSearch_found _ k _ (inv_read hI) _ _ _ hrep hroot (inv_fuel hI hrep hroot)
    rcases hcmp : bytesCompare k p.key with _ | _ | _
    · rw [hcmp] at hp3
      unfold Get
      dsimp only
      rw [if_neg hroot, hp3]
    · have h2 := hp4 hcmp
      rw [hlook] at h2
      cases h2
    · rw [hcmp] at hp3
      unfold Get
      dsimp only
      rw [if_neg hroot, hp3]

/-! ## `Set` preservation of the invariant -/

theorem sumSizes_append (recs : List record) (x : record) :
    sumSizes (recs ++ [x]) = sumSizes recs + x.size := by
  simp [sumSizes]

theorem newRecord_wf (db : HashDB) {key value : Bytes}
    (hsz : 28 + key.length + value.length ≤ 2 ^ 31) :
    WfRec (newRecord db key value) ∧ (newRecord db key value).size ≤ 2 ^ 31 ∧
      28 + key.length + value.length ≤ (newRecord db key value).size := by
  have h31 : (2 : Nat) ^ 31 < 2 ^ 32 := by norm_num
  have hx32 : (28 + key.length + value.length) % 2 ^ 32 = 28 + key.length + value.length :=
    Nat.mod_eq_of_lt (by omega)
  have hc := nextPowerTwo_correct (28 + key.length + value.length) (by omega) hsz
  have hs : (newRecord db key value).size = nextPowerTwo (28 + key.length + value.length) := by
    show nextPowerTwo ((28 + key.length + value.length) % 2 ^ 32) = _
    rw [hx32]
  have hle : (newRecord db key value).size ≤ 2 ^ 31 := by
    rw [hs]
    exact hc.2.2 (2 ^ 31) ⟨31, rfl⟩ hsz
  have hge : 28 + key.length + value.length ≤ (newRecord db key value).size := by
    rw [hs]
    exact hc.2.1
  refine ⟨⟨hge, by omega, ?_, ?_⟩, hle, hge⟩
  · show (0 : Nat) < 2 ^ 64
    norm_num
  · show (0 : Nat) < 2 ^ 64
    norm_num

theorem rep_singleton {recs2 : List record} {nr : record}
    (hfind : findRec recs2 nr.offset = some nr) (hnz : nr.offset ≠ 0) (hl : nr.left = 0)
    (hr : nr.right = 0) :
    Rep recs2 nr.offset (.node nr.offset nr.key nr.value .tip .tip) := by
  refine @Rep.node recs2 nr.offset nr BTree.tip BTree.tip hfind hnz ?_ ?_ ?_ ?_
  · rw [hl]
    exact Rep.tip
  · rw [hr]
    exact Rep.tip
  · rw [hl]
    intro h
    exact absurd rfl h
  · rw [hr]
    intro h
    exact absurd rfl h

theorem dirLen_pos (B : Nat) : 0 < dirLen B := by
  unfold dirLen
  omega

theorem set_inv_root {db : HashDB} {recs : List record} {m : List (Bytes × Bytes)}
    {key value : Bytes}
    (hI : DBInv db recs m) (hsz : 28 + key.length + value.length ≤ 2 ^ 31)
    (hroot : db.buckets.getD (bucket db.nbuckets key) 0 = 0) :
    ∃ db2, Set db key value = .ok db2 ∧
      DBInv db2 (recs ++ [newRecord db key value]) (m ++ [(key, value)]) ∧
      db2.nbuckets = db.nbuckets ∧
      db2.buckets = db.buckets.set (bucket db.nbuckets key) db.file.length ∧
      db2.file.length = db.file.length + (newRecord db key value).size ∧
      key ∉ m.map Prod.fst := by
  obtain ⟨hwfnr, hszle, hszge⟩ := newRecord_wf db hsz
  have hflen := inv_file_length hI
  have hnotin : ∀ r ∈ recs, r.offset ≠ (newRecord db key value).offset := by
    intro r hr
    have := inv_offsets_lt hI r hr
    show r.offset ≠ db.file.length
    omega
  have hEOFnz : db.file.length ≠ 0 := by
    have := dirLen_pos db.nbuckets
    omega
  have hbid_lt : bucket db.nbuckets key < 2 ^ db.nbuckets := bucket_lt _ _
  have hkeyabs : key ∉ m.map Prod.fst := by
    intro hk
    obtain ⟨e, hem, hefst⟩ := List.mem_map.mp hk
    obtain ⟨t, hrep, hent⟩ := hI.hmem e hem
    rw [hefst, hroot] at hrep
    rw [rep_zero hrep] at hent
    simp [entriesT] at hent
  set nr := newRecord db key value with hnrdef
  set bks2 := db.buckets.set (bucket db.nbuckets key) db.file.length with hbks2def
  have hbklen : bks2.length = 2 ^ db.nbuckets := by
    rw [hbks2def, List.length_set, hI.hbuckets]
  set db1 : HashDB := writeBuckets { db with buckets := bks2 } with hdb1def
  set db2 : HashDB := { db1 with file := writeRecord db1.file nr } with hdb2def
  have hdb1file : db1.file = dirBytes db.nbuckets bks2 ++ joinEnc recs := by
    show writeAt db.file 0 (dirBytes db.nbuckets bks2) = _
    rw [hI.hfile]
    exact writeAt_zero _ _ _ (by rw [length_dirBytes _ _ hbklen,
      length_dirBytes _ _ hI.hbuckets])
  have hdb1len : db1.file.length = db.file.length := by
    rw [hdb1file, hflen, List.length_append, length_dirBytes _ _ hbklen, length_joinEnc]
  have hoffnr : nr.offset = db1.file.length := by
    rw [hdb1len]
    rfl
  have hdb2file : db2.file = dirBytes db.nbuckets bks2 ++ joinEnc (recs ++ [nr]) := by
    show writeRecord db1.file nr = _
    unfold writeRecord
    rw [hoffnr, writeAt_append, hdb1file]
    simp [joinEnc, List.append_assoc]
  have hdb2len : db2.file.length = db.file.length + nr.size := by
    rw [hdb2file, List.length_append, length_dirBytes _ _ hbklen, length_joinEnc,
      sumSizes_append]
    omega
  have hfindnr : findRec (recs ++ [nr]) nr.offset = some nr := findRec_append_new hnotin
  have hrootEOF : db2.buckets.getD (bucket db.nbuckets key) 0 = db.file.length := by
    show bks2.getD (bucket db.nbuckets key) 0 = db.file.length
    rw [hbks2def]
    exact getD_set_self _ _ _ (by rw [hI.hbuckets]; exact hbid_lt)
  have hrootne : ∀ j, j ≠ bucket db.nbuckets key →
      db2.buckets.getD j 0 = db.buckets.getD j 0 := by
    intro j hj
    show bks2.getD j 0 = db.buckets.getD j 0
    rw [hbks2def]
    exact getD_set_ne _ _ _ _ fun he => hj he.symm
  have hsing : Rep (recs ++ [nr]) db.file.length (.node nr.offset nr.key nr.value .tip .tip) := by
    have h0 := rep_singleton hfindnr (by show db.file.length ≠ 0; exact hEOFnz) rfl rfl
    exact h0
  have hident : ∀ j, j ≠ bucket db.nbuckets key → ∀ tj, Rep (recs ++ [nr]) (db2.buckets.getD j 0) tj →
      Rep recs (db.buckets.getD j 0) tj ∧ ∀ o ∈ tOffsets tj, o < db.file.length := by
    intro j hj tj htj
    rw [hrootne j hj] at htj
    by_cases hjlt : j < 2 ^ db.nbuckets
    · obtain ⟨t0, hrep0, _, _, _⟩ := hI.htree j hjlt
      have hteq : tj = t0 := rep_unique htj (rep_append hrep0)
      subst hteq
      exact ⟨hrep0, tree_offsets_lt hI hrep0⟩
    · have hz : db.buckets.getD j 0 = 0 := by
        apply List.getD_eq_default
        rw [hI.hbuckets]
        omega
      rw [hz] at htj ⊢
      rw [rep_zero htj]
      exact ⟨Rep.tip, by simp [tOffsets]⟩
  have hset : Set db key value = .ok db2 := by
    unfold Set
    dsimp only
    rw [if_pos hroot]
    rfl
  refine ⟨db2, hset, ?_, rfl, rfl, hdb2len, hkeyabs⟩
  refine ⟨hbklen, hdb2file, ?_, ?_, ?_, ?_, ?_, ?_, ?_⟩
  · refine layout_append hI.hlayout ?_
    show db.file.length = dirLen db.nbuckets + sumSizes recs
    omega
  · intro r hr
    rcases List.mem_append.mp hr with h | h
    · exact hI.hwf r h
    · rw [List.mem_singleton.mp h]
      exact hwfnr
  · intro r hr
    rcases List.mem_append.mp hr with h | h
    · obtain ⟨h1, h2⟩ := hI.hlinks r h
      constructor
      · rcases h1 with h1 | ⟨h1a, q, hq, hqo⟩
        · exact Or.inl h1
        · exact Or.inr ⟨h1a, q, List.mem_append_left _ hq, hqo⟩
      · rcases h2 with h2 | ⟨h2a, q, hq, hqo⟩
        · exact Or.inl h2
        · exact Or.inr ⟨h2a, q, List.mem_append_left _ hq, hqo⟩
    · rw [List.mem_singleton.mp h]
      exact ⟨Or.inl rfl, Or.inl rfl⟩
  · intro i hi
    by_cases hib : i = bucket db.nbuckets key
    · subst hib
      refine ⟨.node nr.offset nr.key nr.value .tip .tip, ?_, ?_, ?_, ?_⟩
      · rw [hrootEOF]
        exact hsing
      · exact ⟨by simp [keysT], by simp [keysT], trivial, trivial⟩
      · simp [tOffsets]
      · intro e he
        have hee : entriesT (.node nr.offset nr.key nr.value .tip .tip) =
            [(nr.key, nr.value)] := rfl
        rw [hee] at he
        obtain rfl := List.mem_singleton.mp he
        refine ⟨rfl, List.mem_append_right _ ?_⟩
        show (key, value) ∈ [(key, value)]
        simp
    · obtain ⟨t, hrep, hst, hnd, hent⟩ := hI.htree i hi
      refine ⟨t, ?_, hst, hnd, ?_⟩
      · rw [hrootne i hib]
        exact rep_append hrep
      · intro e he
        exact ⟨(hent e he).1, List.mem_append_left _ (hent e he).2⟩
  · intro e he
    rcases List.mem_append.mp he with h | h
    · obtain ⟨t, hrep, hent⟩ := hI.hmem e h
      by_cases hbe : bucket db.nbuckets e.1 = bucket db.nbuckets key
      · exfalso
        rw [hbe, hroot] at hrep
        rw [rep_zero hrep] at hent
        simp [entriesT] at hent
      · refine ⟨t, ?_, hent⟩
        show Rep (recs ++ [nr]) (db2.buckets.getD (bucket db.nbuckets e.1) 0) t
        rw [hrootne _ hbe]
        exact rep_append hrep
    · rw [List.mem_singleton.mp h]
      refine ⟨.node nr.offset nr.key nr.value .tip .tip, ?_, ?_⟩
      · show Rep _ (db2.buckets.getD (bucket db.nbuckets key) 0) _
        rw [hrootEOF]
        exact hsing
      · show (key, value) ∈ ([] ++ ([(key, value)] ++ []) : List (Bytes × Bytes))
        simp
  · rw [List.map_append]
    refine List.nodup_append.mpr ⟨hI.hnodup, by simp, ?_⟩
    intro a ha hb
    simp only [List.map_cons, List.map_nil, List.mem_singleton] at hb
    subst hb
    exact hkeyabs ha
  · intro i j ti tj hij hti htj o hoi hoj
    by_cases hib : i = bucket db.nbuckets key
    · subst hib
      have hjb : j ≠ bucket db.nbuckets key := fun he => hij he.symm
      have htieq : ti = .node nr.offset nr.key nr.value .tip .tip := by
        refine rep_unique hti ?_
        rw [hrootEOF]
        exact hsing
      rw [htieq] at hoi
      simp only [tOffsets, List.mem_cons, List.append_nil, List.not_mem_nil, or_false] at hoi
      obtain ⟨_, hlt⟩ := hident j hjb tj htj
      have h2 := hlt o hoj
      have h3 : nr.offset = db.file.length := rfl
      omega
    · by_cases hjb : j = bucket db.nbuckets key
      · subst hjb
        have htjeq : tj = .node nr.offset nr.key nr.value .tip .tip := by
          refine rep_unique htj ?_
          rw [hrootEOF]
          exact hsing
        rw [htjeq] at hoj
        simp only [tOffsets, List.mem_cons, List.append_nil, List.not_mem_nil, or_false] at hoj
        obtain ⟨_, hlt⟩ := hident i hib ti hti
        have h2 := hlt o hoi
        have h3 : nr.offset = db.file.length := rfl
        omega
      · obtain ⟨hti0, _⟩ := hident i hib ti hti
        obtain ⟨htj0, _⟩ := hident j hjb tj htj
        exact hI.hdisj i j ti tj hij hti0 htj0 o hoi hoj

theorem findRec_append_ne {x : record} {o : Nat} (h : x.offset ≠ o) :
    ∀ {l1 : List record}, findRec (l1 ++ [x]) o = findRec l1 o := by
  intro l1
  induction l1 with
  | nil =>
    show findRec [x] o = none
    simp only [findRec]
    rw [if_neg h]
  | cons q rs ih =>
    rw [List.cons_append]
    simp only [findRec]
    by_cases hq : q.offset = o
    · rw [if_pos hq, if_pos hq]
    · rw [if_neg hq, if_neg hq]
      exact ih

theorem set_inv_nonroot {db : HashDB} {recs : List record} {m : List (Bytes × Bytes)}
    {key value : Bytes}
    (hI : DBInv db recs m) (hsz : 28 + key.length + value.length ≤ 2 ^ 31)
    (hroom : db.file.length < 2 ^ 63)
    (hroot : db.buckets.getD (bucket db.nbuckets key) 0 ≠ 0) :
    ∃ db2 recs2, Set db key value = .ok db2 ∧
      DBInv db2 recs2 (insertModel m key value) ∧
      db2.nbuckets = db.nbuckets ∧ db2.buckets = db.buckets ∧
      db2.file.length = db.file.length + (newRecord db key value).size ∧
      (recs2 = recs ++ [newRecord db key value] ∨
        ∃ p ∈ recs,
          (p.left = 0 ∧
            recs2 = updateRec recs { p with left := db.file.length } ++
              [newRecord db key value]) ∨
          (p.right = 0 ∧
            recs2 = updateRec recs { p with right := db.file.length } ++
              [newRecord db key value])) ∧
      (∀ j, j ≠ bucket db.nbuckets key → ∀ tj, Rep recs (db.buckets.getD j 0) tj →
        Rep recs2 (db.buckets.getD j 0) tj) := by
  obtain ⟨hwfnr, hszle, hszge⟩ := newRecord_wf db hsz
  have hflen := inv_file_length hI
  have hEOFnz : db.file.length ≠ 0 := by
    have := dirLen_pos db.nbuckets
    omega
  set nr := newRecord db key value with hnrdef
  have hnotin : ∀ r ∈ recs, r.offset ≠ nr.offset := by
    intro r hr
    have := inv_offsets_lt hI r hr
    show r.offset ≠ db.file.length
    omega
  have hnroff : nr.offset = db.file.length := rfl
  obtain ⟨t, hrept, hst, hnd, hent⟩ := hI.htree (bucket db.nbuckets key) (bucket_lt _ _)
  have hread := inv_read hI
  have hfuel := inv_fuel hI hrept hroot
  have hfresh : ∀ o ∈ tOffsets t, o < db.file.length := tree_offsets_lt hI hrept
  by_cases hin : key ∈ m.map Prod.fst
  · -- the key is already present: binSearch ends on an equal key and the
    -- appended record is left unlinked
    obtain ⟨e, hem, hefst⟩ := List.mem_map.mp hin
    obtain ⟨t0, hrep0, hent0⟩ := hI.hmem e hem
    rw [hefst] at hrep0
    have hte : t0 = t := rep_unique hrep0 hrept
    subst hte
    have hkv : (key, e.2) ∈ entriesT t0 := by
      have he2 : e = (key, e.2) := by
        rw [← hefst]
      rwa [he2] at hent0
    have hlook : lookupT key t0 = some e.2 := mem_lookupT hst hkv
    obtain ⟨p, hp1, hp2, hp3, hp4, hp5, hp6⟩ :=
      @binSearch_found _ key _ hread _ _ _ hrept hroot hfuel
    rcases hcmp : bytesCompare key p.key with _ | _ | _
    · have h2 := (hp5 hcmp).2
      rw [hlook] at h2
      cases h2
    · rw [hcmp] at hp3
      set db2 : HashDB := { db with file := writeRecord db.file nr } with hdb2def
      have hset : Set db key value = .ok db2 := by
        unfold Set
        dsimp only
        rw [if_neg hroot, hp3]
        rfl
      have hmodel : insertModel m key value = m := by
        unfold insertModel
        rw [if_pos hin]
      have hdb2file : db2.file = dirBytes db.nbuckets db.buckets ++ joinEnc (recs ++ [nr]) := by
        show writeRecord db.file nr = _
        unfold writeRecord
        rw [hnroff, writeAt_append, hI.hfile]
        simp [joinEnc, List.append_assoc]
      have hdb2len : db2.file.length = db.file.length + nr.size := by
        rw [hdb2file, List.length_append, length_dirBytes _ _ hI.hbuckets, length_joinEnc,
          sumSizes_append]
        omega
      have hident : ∀ j tj, Rep (recs ++ [nr]) (db.buckets.getD j 0) tj →
          Rep recs (db.buckets.getD j 0) tj ∧ ∀ o ∈ tOffsets tj, o < db.file.length := by
        intro j tj htj
        by_cases hjlt : j < 2 ^ db.nbuckets
        · obtain ⟨t1, hrep1, _, _, _⟩ := hI.htree j hjlt
          have hteq : tj = t1 := rep_unique htj (rep_append hrep1)
          subst hteq
          exact ⟨hrep1, tree_offsets_lt hI hrep1⟩
        · have hz : db.buckets.getD j 0 = 0 := by
            apply List.getD_eq_default
            rw [hI.hbuckets]
            omega
          rw [hz] at htj ⊢
          rw [rep_zero htj]
          exact ⟨Rep.tip, by simp [tOffsets]⟩
      rw [hmodel]
      refine ⟨db2, recs ++ [nr], hset, ?_, rfl, rfl, hdb2len, Or.inl rfl, ?_⟩
      · refine ⟨hI.hbuckets, hdb2file, ?_, ?_, ?_, ?_, ?_, hI.hnodup, ?_⟩
        · refine layout_append hI.hlayout ?_
          show db.file.length = dirLen db.nbuckets + sumSizes recs
          omega
        · intro r hr
          rcases List.mem_append.mp hr with h | h
          · exact hI.hwf r h
          · rw [List.mem_singleton.mp h]
            exact hwfnr
        · intro r hr
          rcases List.mem_append.mp hr with h | h
          · obtain ⟨h1, h2⟩ := hI.hlinks r h
            constructor
            · rcases h1 with h1 | ⟨h1a, q, hq, hqo⟩
              · exact Or.inl h1
              · exact Or.inr ⟨h1a, q, List.mem_append_left _ hq, hqo⟩
            · rcases h2 with h2 | ⟨h2a, q, hq, hqo⟩
              · exact Or.inl h2
              · exact Or.inr ⟨h2a, q, List.mem_append_left _ hq, hqo⟩
          · rw [List.mem_singleton.mp h]
            exact ⟨Or.inl rfl, Or.inl rfl⟩
        · intro i hi
          obtain ⟨t1, hrep1, hst1, hnd1, hent1⟩ := hI.htree i hi
          exact ⟨t1, rep_append hrep1, hst1, hnd1, hent1⟩
        · intro e2 he2
          obtain ⟨t1, hrep1, hent1⟩ := hI.hmem e2 he2
          exact ⟨t1, rep_append hrep1, hent1⟩
        · intro i j ti tj hij hti htj o hoi hoj
          obtain ⟨hti0, _⟩ := hident i ti hti
          obtain ⟨htj0, _⟩ := hident j tj htj
          exact hI.hdisj i j ti tj hij hti0 htj0 o hoi hoj
      · intro j _ tj htj
        exact rep_append htj
    · have h2 := (hp6 hcmp).2
      rw [hlook] at h2
      cases h2
  · -- the key is absent: binSearch finds an insertion parent whose link is
    -- rewritten in place, and the appended record becomes a leaf
    have hlook : lookupT key t = none := lookup_none_of_absent hI hin hrept hent
    obtain ⟨p, cmp, hbs, hpfind, hpmem, hcmpd, hpatch⟩ :=
      @binSearch_insert _ key value _ hread _ _ _ hrept hroot hfuel hlook hnd
    have hpinrecs : p ∈ recs := (findRec_some hpfind).1
    have hpoff_lt : p.offset < db.file.length := inv_offsets_lt hI p hpinrecs
    have hwfp := hI.hwf p hpinrecs
    set p2 : record := if cmp = Ordering.lt then { p with left := db.file.length }
      else { p with right := db.file.length } with hp2def
    have hp2off : p2.offset = p.offset := by
      rw [hp2def]
      by_cases hc : cmp = Ordering.lt
      · rw [if_pos hc]
      · rw [if_neg hc]
    have hp2size : p2.size = p.size := by
      rw [hp2def]
      by_cases hc : cmp = Ordering.lt
      · rw [if_pos hc]
      · rw [if_neg hc]
    have hp2key : p2.key = p.key := by
      rw [hp2def]
      by_cases hc : cmp = Ordering.lt
      · rw [if_pos hc]
      · rw [if_neg hc]
    have hp2value : p2.value = p.value := by
      rw [hp2def]
      by_cases hc : cmp = Ordering.lt
      · rw [if_pos hc]
      · rw [if_neg hc]
    have hwfp2 : WfRec p2 := by
      have h64 : db.file.length < 2 ^ 64 := by
        have : (2 : Nat) ^ 63 < 2 ^ 64 := by norm_num
        omega
      rw [hp2def]
      by_cases hc : cmp = Ordering.lt
      · rw [if_pos hc]
        exact ⟨hwfp.hsz, hwfp.hsz32, h64, hwfp.hright⟩
      · rw [if_neg hc]
        exact ⟨hwfp.hsz, hwfp.hsz32, hwfp.hleft, h64⟩
    set recs2 : List record := updateRec recs p2 ++ [nr] with hrecs2def
    set db1 : HashDB := { db with file := writeRecord db.file p2 } with hdb1def
    set db2 : HashDB := { db1 with file := writeRecord db1.file nr } with hdb2def
    have hszmatch : ∀ r ∈ recs, r.offset = p2.offset → r.size = p2.size := by
      intro r hr he
      have hrp : r = p := by
        refine layout_offset_inj hI.hlayout ?_ r hr p hpinrecs ?_
        · intro r2 hr2
          have := (hI.hwf r2 hr2).hsz
          omega
        · rw [he, hp2off]
      rw [hrp, hp2size]
    have hpos : ∀ r ∈ recs, 0 < r.size := by
      intro r2 hr2
      have := (hI.hwf r2 hr2).hsz
      omega
    have hdb1file : db1.file = dirBytes db.nbuckets db.buckets ++ joinEnc (updateRec recs p2) := by
      show writeRecord db.file p2 = _
      unfold writeRecord
      rw [hI.hfile]
      refine joinEnc_update ?_ hpos hszmatch ⟨p, hpinrecs, hp2off.symm⟩
      rw [length_dirBytes _ _ hI.hbuckets]
      exact hI.hlayout
    have hlay1 : Layout (dirLen db.nbuckets) (updateRec recs p2) :=
      layout_updateRec hI.hlayout hszmatch
    have hsum1 : sumSizes (updateRec recs p2) = sumSizes recs := sumSizes_updateRec hszmatch
    have hdb1len : db1.file.length = db.file.length := by
      rw [hdb1file, List.length_append, length_dirBytes _ _ hI.hbuckets, length_joinEnc,
        hsum1, hflen]
    have hoffnr : nr.offset = db1.file.length := by
      rw [hdb1len]
      exact hnroff
    have hdb2file : db2.file = dirBytes db.nbuckets db.buckets ++ joinEnc recs2 := by
      show writeRecord db1.file nr = _
      unfold writeRecord
      rw [hoffnr, writeAt_append, hdb1file, hrecs2def]
      simp [joinEnc, List.append_assoc]
    have hdb2len : db2.file.length = db.file.length + nr.size := by
      rw [hdb2file, List.length_append, length_dirBytes _ _ hI.hbuckets, length_joinEnc,
        hrecs2def, sumSizes_append, hsum1]
      omega
    have hset : Set db key value = .ok db2 := by
      unfold Set
      dsimp only
      rw [if_neg hroot, hbs]
      rcases hcmpd with ⟨hcl, _, _⟩ | ⟨hcg, _, _⟩
      · subst hcl
        show SetResult.ok _ = SetResult.ok db2
        rw [hdb2def, hdb1def, hp2def]
        rw [if_pos rfl]
        rfl
      · subst hcg
        show SetResult.ok _ = SetResult.ok db2
        rw [hdb2def, hdb1def, hp2def]
        rw [if_neg (by simp)]
        rfl
    have hfr_ne : ∀ o, o ≠ p.offset → o ≠ nr.offset → findRec recs2 o = findRec recs o := by
      intro o h1 h2
      rw [hrecs2def, findRec_append_ne (fun he => h2 he.symm), findRec_updateRec_ne]
      rw [hp2off]
      exact h1
    have hfr_p : findRec recs2 p.offset = some p2 := by
      rw [hrecs2def]
      refine findRec_append_left ?_
      have h0 : findRec recs p2.offset = some p := by
        rw [hp2off]
        exact hpfind
      have := findRec_updateRec_eq h0
      rwa [hp2off] at this
    have hfr_nr : findRec recs2 nr.offset = some nr := by
      rw [hrecs2def]
      apply findRec_append_new
      intro r hr
      rcases mem_updateRec hr with rfl | hrr
      · rw [hp2off, hnroff]
        omega
      · exact hnotin r hrr
    have hfp2 : findRec recs2 p.offset =
        some (if cmp = Ordering.lt then { p with left := nr.offset }
          else { p with right := nr.offset }) := by
      rw [hfr_p, hp2def]
      rfl
    have hrepins : Rep recs2 (db.buckets.getD (bucket db.nbuckets key) 0)
        (insertT key value nr.offset t) := by
      refine hpatch nr.offset nr recs2 ?_ hfp2 hfr_nr rfl rfl rfl rfl ?_ ?_
      · intro o ho hop
        refine hfr_ne o hop ?_
        have := hfresh o ho
        rw [hnroff]
        omega
      · intro o ho
        rw [hnroff]
        exact hfresh o ho
      · rw [hnroff]
        exact hEOFnz
    have hstins : ST (insertT key value nr.offset t) := ST_insertT hst
    have hndins : (tOffsets (insertT key value nr.offset t)).Nodup := by
      refine nodup_insertT hnd ?_
      intro o ho
      rw [hnroff]
      exact hfresh o ho
    have hframe_other : ∀ j, j ≠ bucket db.nbuckets key → ∀ tj,
        Rep recs (db.buckets.getD j 0) tj → Rep recs2 (db.buckets.getD j 0) tj := by
      intro j hj tj htj
      refine rep_frame htj ?_
      intro o ho
      have hop : o ≠ p.offset := by
        intro he
        exact (hI.hdisj j (bucket db.nbuckets key) tj t hj htj hrept o ho) (he ▸ hpmem)
      have honr : o ≠ nr.offset := by
        obtain ⟨r, hr⟩ := rep_found htj o ho
        obtain ⟨hrmem, hroff⟩ := findRec_some hr
        have := inv_offsets_lt hI r hrmem
        rw [hnroff]
        omega
      exact hfr_ne o hop honr
    have hident : ∀ j tj, j ≠ bucket db.nbuckets key →
        Rep recs2 (db.buckets.getD j 0) tj →
        Rep recs (db.buckets.getD j 0) tj ∧ ∀ o ∈ tOffsets tj, o < db.file.length := by
      intro j tj hj htj
      by_cases hjlt : j < 2 ^ db.nbuckets
      · obtain ⟨t1, hrep1, _, _, _⟩ := hI.htree j hjlt
        have hteq : tj = t1 := rep_unique htj (hframe_other j hj t1 hrep1)
        subst hteq
        exact ⟨hrep1, tree_offsets_lt hI hrep1⟩
      · have hz : db.buckets.getD j 0 = 0 := by
          apply List.getD_eq_default
          rw [hI.hbuckets]
          omega
        rw [hz] at htj ⊢
        rw [rep_zero htj]
        exact ⟨Rep.tip, by simp [tOffsets]⟩
    have hmodel : insertModel m key value = m ++ [(key, value)] := by
      unfold insertModel
      rw [if_neg hin]
    have hinsoff : ∀ o, o ∈ tOffsets (insertT key value nr.offset t) →
        o ∈ tOffsets t ∨ o = nr.offset := fun o ho => tOffsets_insertT ho
    rw [hmodel]
    refine ⟨db2, recs2, hset, ?_, rfl, rfl, hdb2len, ?_, hframe_other⟩
    · refine ⟨hI.hbuckets, hdb2file, ?_, ?_, ?_, ?_, ?_, ?_, ?_⟩
      · show Layout (dirLen db.nbuckets) recs2
        rw [hrecs2def]
        refine layout_append hlay1 ?_
        rw [hsum1, hnroff]
        omega
      · intro r hr
        rw [hrecs2def] at hr
        rcases List.mem_append.mp hr with h | h
        · rcases mem_updateRec h with rfl | hrr
          · exact hwfp2
          · exact hI.hwf r hrr
        · rw [List.mem_singleton.mp h]
          exact hwfnr
      · intro r hr
        rw [hrecs2def] at hr
        have hcover : ∀ q ∈ recs, ∃ q2 ∈ recs2, q2.offset = q.offset := by
          intro q hq
          obtain ⟨q2, hq2, hq2o⟩ := @updateRec_offset_cover _ p2 _ hq
          exact ⟨q2, by rw [hrecs2def]; exact List.mem_append_left _ hq2, hq2o⟩
        have hlift : ∀ (r3 : record), r3 ∈ recs →
            (r3.left = 0 ∨ (r3.offset < r3.left ∧ ∃ q ∈ recs2, q.offset = r3.left)) ∧
            (r3.right = 0 ∨ (r3.offset < r3.right ∧ ∃ q ∈ recs2, q.offset = r3.right)) := by
          intro r3 hr3
          obtain ⟨h1, h2⟩ := hI.hlinks r3 hr3
          constructor
          · rcases h1 with h1 | ⟨h1a, q, hq, hqo⟩
            · exact Or.inl h1
            · obtain ⟨q2, hq2, hq2o⟩ := hcover q hq
              exact Or.inr ⟨h1a, q2, hq2, by rw [hq2o, hqo]⟩
          · rcases h2 with h2 | ⟨h2a, q, hq, hqo⟩
            · exact Or.inl h2
            · obtain ⟨q2, hq2, hq2o⟩ := hcover q hq
              exact Or.inr ⟨h2a, q2, hq2, by rw [hq2o, hqo]⟩
        rcases List.mem_append.mp hr with h | h
        · rcases mem_updateRec h with rfl | hrr
          · -- the rewritten parent record
            have hnr2 : nr ∈ recs2 := by
              rw [hrecs2def]
              exact List.mem_append_right _ (by simp)
            obtain ⟨hl1, hl2⟩ := hlift p hpinrecs
            rw [hp2def]
            rcases hcmpd with ⟨hcl, _, _⟩ | ⟨hcg, _, _⟩
            · subst hcl
              rw [if_pos rfl]
              constructor
              · refine Or.inr ⟨?_, nr, hnr2, hnroff.symm⟩
                show p.offset < db.file.length
                omega
              · exact hl2
            · subst hcg
              rw [if_neg (by simp)]
              constructor
              · exact hl1
              · refine Or.inr ⟨?_, nr, hnr2, hnroff.symm⟩
                show p.offset < db.file.length
                omega
          · exact hlift r hrr
        · rw [List.mem_singleton.mp h]
          exact ⟨Or.inl rfl, Or.inl rfl⟩
      · intro i hi
        by_cases hib : i = bucket db.nbuckets key
        · subst hib
          refine ⟨insertT key value nr.offset t, hrepins, hstins, hndins, ?_⟩
          intro e2 he2
          rcases (entriesT_insertT hlook).mp he2 with h | h
          · exact ⟨(hent e2 h).1, List.mem_append_left _ (hent e2 h).2⟩
          · subst h
            exact ⟨rfl, List.mem_append_right _ (by simp)⟩
        · obtain ⟨t1, hrep1, hst1, hnd1, hent1⟩ := hI.htree i hi
          refine ⟨t1, hframe_other i hib t1 hrep1, hst1, hnd1, ?_⟩
          intro e2 he2
          exact ⟨(hent1 e2 he2).1, List.mem_append_left _ (hent1 e2 he2).2⟩
      · intro e2 he2
        rcases List.mem_append.mp he2 with h | h
        · obtain ⟨t1, hrep1, hent1⟩ := hI.hmem e2 h
          by_cases hbe : bucket db.nbuckets e2.1 = bucket db.nbuckets key
          · rw [hbe] at hrep1
            have hteq : t1 = t := rep_unique hrep1 hrept
            subst hteq
            refine ⟨insertT key value nr.offset t1, ?_, ?_⟩
            · rw [hbe]
              exact hrepins
            · exact (entriesT_insertT hlook).mpr (Or.inl hent1)
          · exact ⟨t1, hframe_other _ hbe t1 hrep1, hent1⟩
        · obtain rfl := List.mem_singleton.mp h
          refine ⟨insertT key value nr.offset t, hrepins, ?_⟩
          exact (entriesT_insertT hlook).mpr (Or.inr rfl)
      · rw [List.map_append]
        refine List.nodup_append.mpr ⟨hI.hnodup, by simp, ?_⟩
        intro a ha hb
        simp only [List.map_cons, List.map_nil, List.mem_singleton] at hb
        subst hb
        exact hin ha
      · intro i j ti tj hij hti htj o hoi hoj
        by_cases hib : i = bucket db.nbuckets key
        · subst hib
          have hjb : j ≠ bucket db.nbuckets key := fun he => hij he.symm
          have htieq : ti = insertT key value nr.offset t := rep_unique hti hrepins
          rw [htieq] at hoi
          obtain ⟨htj0, hjlt⟩ := hident j tj hjb htj
          rcases hinsoff o hoi with h | h
          · exact hI.hdisj (bucket db.nbuckets key) j t tj hij hrept htj0 o h hoj
          · have h5 := hjlt o hoj
            rw [h, hnroff] at h5
            omega
        · by_cases hjb : j = bucket db.nbuckets key
          · subst hjb
            have htjeq : tj = insertT key value nr.offset t := rep_unique htj hrepins
            rw [htjeq] at hoj
            obtain ⟨hti0, hilt⟩ := hident i ti hib hti
            rcases hinsoff o hoj with h | h
            · exact hI.hdisj i (bucket db.nbuckets key) ti t hij hti0 hrept o hoi h
            · have h5 := hilt o hoi
              rw [h, hnroff] at h5
              omega
          · obtain ⟨hti0, _⟩ := hident i ti hib hti
            obtain ⟨htj0, _⟩ := hident j tj hjb htj
            exact hI.hdisj i j ti tj hij hti0 htj0 o hoi hoj
    · refine Or.inr ⟨p, hpinrecs, ?_⟩
      rcases hcmpd with ⟨hcl, _, hpl0⟩ | ⟨hcg, _, hpr0⟩
      · refine Or.inl ⟨hpl0, ?_⟩
        rw [hrecs2def, hp2def, hcl]
        rw [if_pos rfl]
      · refine Or.inr ⟨hpr0, ?_⟩
        rw [hrecs2def, hp2def, hcg]
        rw [if_neg (by simp)]

theorem set_inv {db : HashDB} {recs : List record} {m : List (Bytes × Bytes)}
    {key value : Bytes}
    (hI : DBInv db recs m) (hsz : 28 + key.length + value.length ≤ 2 ^ 31)
    (hroom : db.file.length < 2 ^ 63) :
    ∃ db2 recs2, Set db key value = .ok db2 ∧ DBInv db2 recs2 (insertModel m key value) ∧
      db2.nbuckets = db.nbuckets ∧
      db2.file.length = db.file.length + (newRecord db key value).size := by
  by_cases hroot : db.buckets.getD (bucket db.nbuckets key) 0 = 0
  · obtain ⟨db2, hset, hinv, hnb, _, hlen, habs⟩ := set_inv_root hI hsz hroot
    have hmodel : insertModel m key value = m ++ [(key, value)] := by
      unfold insertModel
      rw [if_neg habs]
    refine ⟨db2, recs ++ [newRecord db key value], hset, ?_, hnb, hlen⟩
    rw [hmodel]
    exact hinv
  · obtain ⟨db2, recs2, hset, hinv, hnb, _, hlen, _, _⟩ := set_inv_nonroot hI hsz hroom hroot
    exact ⟨db2, recs2, hset, hinv, hnb, hlen⟩

/-! ## Runs of `Set` operations and the abstract model -/

/-- The abstract map after processing a list of insertions. -/
def foldModel (m : List (Bytes × Bytes)) : List (Bytes × Bytes) → List (Bytes × Bytes)
  | [] => m
  | (k, v) :: ops => foldModel (insertModel m k v) ops

/-- The live bindings after running a list of `Set` operations on a fresh
database: the first insertion of each key wins, later re-insertions of the
same key are ignored (the engine has no update path). -/
def modelOf (ops : List (Bytes × Bytes)) : List (Bytes × Bytes) :=
  foldModel [] ops

theorem mem_insertModel {m : List (Bytes × Bytes)} {k v : Bytes} {e : Bytes × Bytes}
    (h : e ∈ m) : e ∈ insertModel m k v := by
  unfold insertModel
  by_cases hc : k ∈ m.map Prod.fst
  · rwa [if_pos hc]
  · rw [if_neg hc]
    exact List.mem_append_left _ h

theorem keys_insertModel {m : List (Bytes × Bytes)} {k v : Bytes} {a : Bytes}
    (h : a ∈ (insertModel m k v).map Prod.fst) : a ∈ m.map Prod.fst ∨ a = k := by
  unfold insertModel at h
  by_cases hc : k ∈ m.map Prod.fst
  · rw [if_pos hc] at h
    exact Or.inl h
  · rw [if_neg hc] at h
    rw [List.map_append] at h
    rcases List.mem_append.mp h with h2 | h2
    · exact Or.inl h2
    · simp only [List.map_cons, List.map_nil, List.mem_singleton] at h2
      exact Or.inr h2

theorem foldModel_mono : ∀ {ops : List (Bytes × Bytes)} {m : List (Bytes × Bytes)}
    {e : Bytes × Bytes}, e ∈ m → e ∈ foldModel m ops := by
  intro ops
  induction ops with
  | nil => intro m e h; exact h
  | cons op rest ih =>
    intro m e h
    obtain ⟨k0, v0⟩ := op
    exact ih (mem_insertModel h)

theorem foldModel_keys : ∀ {ops : List (Bytes × Bytes)} {m : List (Bytes × Bytes)}
    {a : Bytes}, a ∈ (foldModel m ops).map Prod.fst →
    a ∈ m.map Prod.fst ∨ a ∈ ops.map Prod.fst := by
  intro ops
  induction ops with
  | nil => intro m a h; exact Or.inl h
  | cons op rest ih =>
    intro m a h
    obtain ⟨k0, v0⟩ := op
    rcases ih h with h2 | h2
    · rcases keys_insertModel h2 with h3 | h3
      · exact Or.inl h3
      · exact Or.inr (by simp [h3])
    · exact Or.inr (List.mem_cons_of_mem _ h2)

theorem foldModel_mem_of_nodup : ∀ {ops : List (Bytes × Bytes)} {m : List (Bytes × Bytes)}
    {k v : Bytes}, (k, v) ∈ ops → (ops.map Prod.fst).Nodup → k ∉ m.map Prod.fst →
    (k, v) ∈ foldModel m ops := by
  intro ops
  induction ops with
  | nil => simp
  | cons op rest ih =>
    intro m k v hmem hnd habs
    obtain ⟨k0, v0⟩ := op
    simp only [List.map_cons, List.nodup_cons] at hnd
    rcases List.mem_cons.mp hmem with he | hrest
    · have h1 : k = k0 := congrArg Prod.fst he
      have h2 : v = v0 := congrArg Prod.snd he
      subst h1
      subst h2
      show (k, v) ∈ foldModel (insertModel m k v) rest
      apply foldModel_mono
      unfold insertModel
      rw [if_neg habs]
      exact List.mem_append_right _ (by simp)
    · have hkne : k ≠ k0 := by
        intro he2
        subst he2
        exact hnd.1 (List.mem_map.mpr ⟨(k, v), hrest, rfl⟩)
      show (k, v) ∈ foldModel (insertModel m k0 v0) rest
      refine ih hrest hnd.2 ?_
      intro hk
      rcases keys_insertModel hk with h2 | h2
      · exact habs h2
      · exact hkne h2

theorem runSets_inv : ∀ (ops : List (Bytes × Bytes)) {db : HashDB} {recs : List record}
    {m : List (Bytes × Bytes)}, DBInv db recs m →
    (∀ p ∈ ops, 28 + p.1.length + p.2.length ≤ 2 ^ 31) →
    db.file.length + ops.length * 2 ^ 31 < 2 ^ 63 →
    ∃ db2 recs2, runSets db ops = some db2 ∧ DBInv db2 recs2 (foldModel m ops) ∧
      db2.nbuckets = db.nbuckets ∧
      db2.file.length ≤ db.file.length + ops.length * 2 ^ 31 := by
  intro ops
  induction ops with
  | nil =>
    intro db recs m hI _ _
    exact ⟨db, recs, rfl, hI, rfl, by omega⟩
  | cons op rest ih =>
    intro db recs m hI hops hroom
    obtain ⟨k, v⟩ := op
    have hsz : 28 + k.length + v.length ≤ 2 ^ 31 := hops (k, v) (List.mem_cons_self _ _)
    have hroom1 : db.file.length < 2 ^ 63 := by
      simp only [List.length_cons] at hroom
      have : 0 ≤ rest.length * 2 ^ 31 := Nat.zero_le _
      omega
    obtain ⟨db2, recs2, hset, hinv, hnb, hlen⟩ := set_inv hI hsz hroom1
    have hsize_le : (newRecord db k v).size ≤ 2 ^ 31 := (newRecord_wf db hsz).2.1
    have hroom2 : db2.file.length + rest.length * 2 ^ 31 < 2 ^ 63 := by
      simp only [List.length_cons] at hroom
      omega
    obtain ⟨db3, recs3, hrun, hinv3, hnb3, hlen3⟩ :=
      ih hinv (fun p hp => hops p (List.mem_cons_of_mem _ hp)) hroom2
    refine ⟨db3, recs3, ?_, hinv3, by rw [hnb3, hnb], ?_⟩
    · show runSets db ((k, v) :: rest) = some db3
      simp only [runSets, hset]
      exact hrun
    · simp only [List.length_cons]
      omega

theorem create_file_length (B : Nat) : (Create B).file.length = dirLen B := by
  have h := inv_file_length (create_inv B)
  simpa [sumSizes] using h

/-! ## Helpers for the claim theorems and their evaluation witnesses -/

/-- Extract the database from a successful `Set`, defaulting to a fresh
single-bucket database. -/
def okDB : SetResult → HashDB
  | .ok db => db
  | _ => Create 0

/-- A concrete reachable state used by several evaluation witnesses: a fresh
single-bucket database after one insertion. -/
def dbW : HashDB := (runSets (Create 0) [([2], [3])]).getD (Create 0)

/-- The state `dbW` after one further insertion into the same bucket. -/
def db2W : HashDB := okDB (Set dbW [4] [5])

/-- A single `Set` never overwrites a non-zero directory entry: the directory
is only written on the first insertion into a bucket, and then only the empty
target entry changes. -/
theorem set_buckets_stable {db : HashDB} {k v : Bytes} {db2 : HashDB}
    (hset : Set db k v = .ok db2) :
    ∀ i, db.buckets.getD i 0 ≠ 0 → db2.buckets.getD i 0 = db.buckets.getD i 0 := by
  intro i hnz
  unfold Set at hset
  dsimp only at hset
  by_cases hroot : db.buckets.getD (bucket db.nbuckets k) 0 = 0
  · rw [if_pos hroot] at hset
    injection hset with h
    subst h
    show (db.buckets.set (bucket db.nbuckets k) db.file.length).getD i 0 = db.buckets.getD i 0
    refine getD_set_ne _ _ _ _ ?_
    intro he
    rw [← he] at hnz
    exact hnz hroot
  · rw [if_neg hroot] at hset
    cases hbs : binSearch db.file k (db.buckets.getD (bucket db.nbuckets k) 0)
        (db.file.length + 1) with
    | diverge =>
      rw [hbs] at hset
      cases hset
    | ioError =>
      rw [hbs] at hset
      cases hset
    | found cmp other =>
      rw [hbs] at hset
      cases cmp with
      | lt =>
        injection hset with h
        subst h
        rfl
      | eq =>
        injection hset with h
        subst h
        rfl
      | gt =>
        injection hset with h
        subst h
        rfl

/-- Directory entries that are already non-zero survive any successful run of
`Set` operations unchanged. -/
theorem runSets_buckets_stable : ∀ (ops : List (Bytes × Bytes)) {db db2 : HashDB},
    runSets db ops = some db2 → ∀ i, db.buckets.getD i 0 ≠ 0 →
    db2.buckets.getD i 0 = db.buckets.getD i 0 := by
  intro ops
  induction ops with
  | nil =>
    intro db db2 h i _
    injection h with h
    rw [h]
  | cons op rest ih =>
    intro db db2 h i hnz
    obtain ⟨k, v⟩ := op
    simp only [runSets] at h
    cases hset : Set db k v with
    | ok db1 =>
      rw [hset] at h
      have h1 := set_buckets_stable hset i hnz
      have h2 := ih h i (by rw [h1]; exact hnz)
      rw [h2, h1]
    | ioError =>
      rw [hset] at h
      cases h
    | diverge =>
      rw [hset] at h
      cases h

/-! ## The claims -/

/-- The bucket index as the specification words it (a comparison definition
modelled from the spec, not from the code): interpret the first 8 bytes of the
key's 128-bit digest as an unsigned 64-bit integer assembled in little-endian
byte order (byte 0 least significant) and mask to retain only the lowest
`nbuckets` bits. -/
def bucketSpecLE (nbuckets : Nat) (key : Bytes) : Nat :=
  let sum := md5 key
  let id64 := (List.range 8).foldl (fun acc i => acc + sum.getD i 0 * 2 ^ (8 * i)) 0
  id64 &&& (2 ^ nbuckets - 1)

set_option maxRecDepth 100000 in
/-- Claim C2, refuted: the bucket index the code computes is NOT the
little-endian assembly of the first 8 digest bytes.  In Go,
`uint64(sum[i] << (8*i))` shifts inside `uint8`, so every byte except byte 0
is shifted to 0 before the widening: only the first digest byte ever
contributes.  For the empty key (digest starting `d4 1d 8c d9 8f 00 b2 04`)
and 16 bucket bits the code yields 212 = 0xd4 while the spec's little-endian
assembly yields 7636 = 0x1dd4.  Only the range part of the claim holds:
the result is always below `2 ^ B`. -/
theorem claim_C2_bucket_little_endian :
    bucket 16 [] = 212 ∧ bucketSpecLE 16 [] = 7636 ∧
    bucket 16 [] ≠ bucketSpecLE 16 [] ∧ ∀ B key, bucket B key < 2 ^ B := by
  refine ⟨by decide, by decide, by decide, fun B key => bucket_lt B key⟩

/-- Claim C7, confirmed: `writeRecord` emits exactly `r.size` bytes laid out
as the 4-byte big-endian size, 8-byte left and right offsets, 4-byte key and
value lengths, the key bytes, the value bytes, then zero padding up to the
allocated size; and `readRecord` on those bytes (at any position in the file,
with anything following) recovers the record's size, left, right, key and
value fields exactly. -/
theorem claim_C7_codec (pre post : Bytes) (r : record) (hwf : WfRec r) :
    (encodeRecord r).length = r.size ∧
    encodeRecord r =
      be32 r.size ++ be64 r.left ++ be64 r.right ++ be32 r.key.length ++
        be32 r.value.length ++ r.key ++ r.value ++
        List.replicate (r.size - (28 + r.key.length + r.value.length)) 0 ∧
    readRecord (pre ++ (encodeRecord r ++ post)) pre.length =
      some { r with offset := pre.length } := by
  refine ⟨length_encodeRecord r, ?_, readRecord_encode pre post r hwf⟩
  rw [encodeRecord_eq r hwf.hsz]
  unfold encHeader
  simp [List.append_assoc]

/-- Claim C7 witness: the codec roundtrip evaluated on a concrete record
embedded between other bytes. -/
theorem claim_C7_codec_witness :
    (encodeRecord { offset := 0, size := 32, left := 0, right := 0, key := [1], value := [2, 3] }).length = 32 ∧
    encodeRecord { offset := 0, size := 32, left := 0, right := 0, key := [1], value := [2, 3] } =
      be32 32 ++ be64 0 ++ be64 0 ++ be32 1 ++ be32 2 ++ [1] ++ [2, 3] ++
        List.replicate 1 0 ∧
    readRecord ([9] ++ (encodeRecord { offset := 0, size := 32, left := 0, right := 0, key := [1], value := [2, 3] } ++ [8, 8])) 1 =
      some { offset := 1, size := 32, left := 0, right := 0, key := [1], value := [2, 3] } :=
  claim_C7_codec [9] [8, 8] { offset := 0, size := 32, left := 0, right := 0, key := [1], value := [2, 3] }
    ⟨by decide, by decide, by decide, by decide⟩

/-- Claim C8, corrected: the allocated size is the least power of two at or
above `28 + keyLength + valueLength` only when that total stays within
`2 ^ 31`; the computation runs in `uint32` and wraps beyond that (see the
counterexample).  Under the bound, the three conjuncts say the result is a
power of two, at or above the total (so a re-encoded record with a rewritten
parent link always fits in the allocation), and no smaller power of two is. -/
theorem claim_C8_least_power (key value : Bytes)
    (h : 28 + key.length + value.length ≤ 2 ^ 31) :
    (∃ e, nextPowerTwo ((28 + key.length + value.length) % 2 ^ 32) = 2 ^ e) ∧
    28 + key.length + value.length ≤
      nextPowerTwo ((28 + key.length + value.length) % 2 ^ 32) ∧
    ∀ p, (∃ e, p = 2 ^ e) → 28 + key.length + value.length ≤ p →
      nextPowerTwo ((28 + key.length + value.length) % 2 ^ 32) ≤ p := by
  have hx : (28 + key.length + value.length) % 2 ^ 32 = 28 + key.length + value.length :=
    Nat.mod_eq_of_lt (by omega)
  rw [hx]
  exact nextPowerTwo_correct _ (by omega) h

/-- Claim C8 witness: the least-power-of-two characterisation evaluated at a
one-byte key and a one-byte value (total 30, allocation 32). -/
theorem claim_C8_least_power_witness :
    (∃ e, nextPowerTwo ((28 + ([1] : Bytes).length + ([2] : Bytes).length) % 2 ^ 32) = 2 ^ e) ∧
    28 + ([1] : Bytes).length + ([2] : Bytes).length ≤
      nextPowerTwo ((28 + ([1] : Bytes).length + ([2] : Bytes).length) % 2 ^ 32) ∧
    ∀ p, (∃ e, p = 2 ^ e) → 28 + ([1] : Bytes).length + ([2] : Bytes).length ≤ p →
      nextPowerTwo ((28 + ([1] : Bytes).length + ([2] : Bytes).length) % 2 ^ 32) ≤ p :=
  claim_C8_least_power [1] [2] (by decide)

/-- Claim C8 counterexample: for a key of length `2 ^ 31` (and empty value)
the `uint32` computation `nextPowerTwo(uint32(28 + len(key) + len(value)))`
wraps to 0, which is no power of two at all, let alone the least one at or
above the total. -/
theorem claim_C8_counterexample :
    nextPowerTwo ((28 + (List.replicate (2 ^ 31) (0 : Nat)).length + ([] : Bytes).length) % 2 ^ 32) = 0 ∧
    ¬ ∃ e : Nat, (0 : Nat) = 2 ^ e := by
  constructor
  · rw [List.length_replicate]
    decide
  · rintro ⟨e, he⟩
    have h2 : 0 < 2 ^ e := Nat.pow_pos (by omega)
    omega

/-- Claim C1, confirmed: after any successful run of `Set` operations with
pairwise-distinct keys on a fresh database (sizes within the engine's
`uint32`/`int64` ranges), `Get` on each inserted key returns exactly the
inserted value, byte for byte — empty keys and values included, and also when
several keys hash to the same bucket, since the proof places every binding in
its bucket's search tree and resolves the lookup by key content. -/
theorem claim_C1_roundtrip (B : Nat) (ops : List (Bytes × Bytes)) (db : HashDB)
    (hsz : ∀ p ∈ ops, 28 + p.1.length + p.2.length ≤ 2 ^ 31)
    (hroom : dirLen B + ops.length * 2 ^ 31 < 2 ^ 63)
    (hnd : (ops.map Prod.fst).Nodup)
    (hrun : runSets (Create B) ops = some db) :
    ∀ p ∈ ops, Get db p.1 = .found p.2 := by
  obtain ⟨db', recs, hrun', hinv, _, _⟩ :=
    runSets_inv ops (create_inv B) hsz (by rw [create_file_length]; exact hroom)
  rw [hrun] at hrun'
  injection hrun' with h
  subst h
  intro p hp
  obtain ⟨k, v⟩ := p
  exact get_found hinv (foldModel_mem_of_nodup hp hnd (by simp))

set_option maxRecDepth 1000000 in
/-- Claim C1 witness: a two-insertion run into a single bucket (forced
collision), one binding with empty key and empty value, evaluated concretely. -/
theorem claim_C1_roundtrip_witness :
    Get ((runSets (Create 0) [([], []), ([1], [7])]).getD (Create 0)) [] = GetResult.found [] ∧
    Get ((runSets (Create 0) [([], []), ([1], [7])]).getD (Create 0)) [1] = GetResult.found [7] :=
  ⟨claim_C1_roundtrip 0 [([], []), ([1], [7])] _ (by decide) (by decide) (by decide) rfl
      ([], []) (by decide),
   claim_C1_roundtrip 0 [([], []), ([1], [7])] _ (by decide) (by decide) (by decide) rfl
      ([1], [7]) (by decide)⟩

/-- Claim C3, confirmed: re-inserting a key that is already present appends
an orphan record and links nothing (the `cmp == 0` case of `Set` does not
update), so every previously inserted binding — the re-inserted key included,
which keeps its original value — is still retrievable afterwards. -/
theorem claim_C3_reinsert (B : Nat) (ops : List (Bytes × Bytes)) (db db2 : HashDB)
    (k v : Bytes)
    (hsz : ∀ p ∈ ops, 28 + p.1.length + p.2.length ≤ 2 ^ 31)
    (hkv : 28 + k.length + v.length ≤ 2 ^ 31)
    (hroom : dirLen B + ops.length * 2 ^ 31 < 2 ^ 63)
    (hrun : runSets (Create B) ops = some db)
    (hpresent : k ∈ (modelOf ops).map Prod.fst)
    (hset : Set db k v = .ok db2) :
    ∀ e ∈ modelOf ops, Get db2 e.1 = .found e.2 := by
  obtain ⟨db', recs, hrun', hinv, _, hlen⟩ :=
    runSets_inv ops (create_inv B) hsz (by rw [create_file_length]; exact hroom)
  rw [hrun] at hrun'
  injection hrun' with h
  subst h
  rw [create_file_length] at hlen
  have hroom1 : db.file.length < 2 ^ 63 := by omega
  obtain ⟨db2', recs2, hset', hinv2, _, _⟩ := set_inv hinv hkv hroom1
  rw [hset] at hset'
  injection hset' with h2
  subst h2
  have hpresent2 : k ∈ (foldModel [] ops).map Prod.fst := hpresent
  have hm : insertModel (foldModel [] ops) k v = foldModel [] ops := by
    unfold insertModel
    rw [if_pos hpresent2]
  rw [hm] at hinv2
  intro e he
  obtain ⟨a, b⟩ := e
  exact get_found hinv2 he

set_option maxRecDepth 1000000 in
/-- Claim C3 witness: re-inserting the key `[2]` (already bound to `[3]` in
`dbW`) with a new value; the original binding is still returned. -/
theorem claim_C3_reinsert_witness :
    Get (okDB (Set dbW [2] [9])) [2] = GetResult.found [3] :=
  claim_C3_reinsert 0 [([2], [3])] dbW (okDB (Set dbW [2] [9])) [2] [9]
    (by decide) (by decide) (by decide) rfl (by decide) rfl ([2], [3]) (by decide)

/-- Claim C4, confirmed: after any successful run of `Set` operations on a
fresh database, `Get` on a key that was never inserted returns the explicit
`notFound` result — not an error and not an empty-but-present value; with an
empty run this is the freshly-created-database case. -/
theorem claim_C4_absent (B : Nat) (ops : List (Bytes × Bytes)) (db : HashDB) (k : Bytes)
    (hsz : ∀ p ∈ ops, 28 + p.1.length + p.2.length ≤ 2 ^ 31)
    (hroom : dirLen B + ops.length * 2 ^ 31 < 2 ^ 63)
    (hrun : runSets (Create B) ops = some db)
    (habs : k ∉ ops.map Prod.fst) :
    Get db k = .notFound := by
  obtain ⟨db', recs, hrun', hinv, _, _⟩ :=
    runSets_inv ops (create_inv B) hsz (by rw [create_file_length]; exact hroom)
  rw [hrun] at hrun'
  injection hrun' with h
  subst h
  refine get_absent hinv ?_
  intro hk
  rcases foldModel_keys hk with h2 | h2
  · simp at h2
  · exact habs h2

set_option maxRecDepth 1000000 in
/-- Claim C4 witness: a never-inserted key after one insertion, and a lookup
on a freshly created database, both returning `notFound`. -/
theorem claim_C4_absent_witness :
    Get ((runSets (Create 0) [([1], [2])]).getD (Create 0)) [3] = GetResult.notFound ∧
    Get ((runSets (Create 1) []).getD (Create 0)) [3] = GetResult.notFound :=
  ⟨claim_C4_absent 0 [([1], [2])] _ [3] (by decide) (by decide) rfl (by decide),
   claim_C4_absent 1 [] _ [3] (by decide) (by decide) rfl (by decide)⟩

/-- Claim C5, confirmed: in every state reachable by `Create` and a
successful run of `Set` operations there is a set of records, each reading
back from the file at its offset, such that every bucket's root offset
represents a tree `t` with `ST t`: at every node all keys in the left subtree
compare `lt` and all keys in the right subtree compare `gt` under byte-wise
lexicographic comparison (`Get` performs no writes, so it preserves this
trivially). -/
theorem claim_C5_bst (B : Nat) (ops : List (Bytes × Bytes)) (db : HashDB)
    (hsz : ∀ p ∈ ops, 28 + p.1.length + p.2.length ≤ 2 ^ 31)
    (hroom : dirLen B + ops.length * 2 ^ 31 < 2 ^ 63)
    (hrun : runSets (Create B) ops = some db) :
    ∃ recs : List record,
      (∀ r ∈ recs, readRecord db.file r.offset = some r) ∧
      ∀ i, i < 2 ^ B → ∃ t, Rep recs (db.buckets.getD i 0) t ∧ ST t := by
  obtain ⟨db', recs, hrun', hinv, hnb, _⟩ :=
    runSets_inv ops (create_inv B) hsz (by rw [create_file_length]; exact hroom)
  rw [hrun] at hrun'
  injection hrun' with h
  subst h
  refine ⟨recs, inv_read hinv, ?_⟩
  intro i hi
  have hi2 : i < 2 ^ db.nbuckets := by
    rw [hnb]
    exact hi
  obtain ⟨t, hrep, hst, _, _⟩ := hinv.htree i hi2
  exact ⟨t, hrep, hst⟩

set_option maxRecDepth 1000000 in
/-- Claim C5 witness: the search-tree invariant instantiated on a concrete
two-insertion state. -/
theorem claim_C5_bst_witness :
    ∃ recs : List record,
      (∀ r ∈ recs, readRecord ((runSets (Create 0) [([2], [3]), ([1], [4])]).getD (Create 0)).file r.offset = some r) ∧
      ∀ i, i < 2 ^ 0 → ∃ t,
        Rep recs (((runSets (Create 0) [([2], [3]), ([1], [4])]).getD (Create 0)).buckets.getD i 0) t ∧ ST t :=
  claim_C5_bst 0 [([2], [3]), ([1], [4])] _ (by decide) (by decide) rfl

/-- Claim C6, confirmed: once a bucket's directory entry is non-zero, no
further successful run of `Set` operations ever changes it — the directory is
rewritten only when `Set` fills an empty entry, so later insertions into the
bucket only link children below the existing root (`Get` performs no writes,
so it cannot change it either). -/
theorem claim_C6_root_stable (db db2 : HashDB) (ops : List (Bytes × Bytes)) (i : Nat)
    (hrun : runSets db ops = some db2) (hnz : db.buckets.getD i 0 ≠ 0) :
    db2.buckets.getD i 0 = db.buckets.getD i 0 :=
  runSets_buckets_stable ops hrun i hnz

set_option maxRecDepth 1000000 in
/-- Claim C6 witness: the root set by the first insertion in `dbW` survives a
further insertion into the same bucket. -/
theorem claim_C6_root_stable_witness :
    ((runSets dbW [([4], [5])]).getD (Create 0)).buckets.getD 0 0 = dbW.buckets.getD 0 0 :=
  claim_C6_root_stable dbW ((runSets dbW [([4], [5])]).getD (Create 0)) [([4], [5])] 0
    rfl (by decide)

/-- Claim C9, confirmed: a successful `Set` leaves every other bucket's
directory entry unchanged and preserves every other bucket's tree over the
new record set; and the only change to previously written records is at most
one parent's `left` or `right` link (`updateRec` with a record differing only
in that link), everything else being a pure append — in particular every old
record keeps its offset, size, key and value. -/
theorem claim_C9_frame (B : Nat) (ops : List (Bytes × Bytes)) (db db2 : HashDB)
    (k v : Bytes)
    (hsz : ∀ p ∈ ops, 28 + p.1.length + p.2.length ≤ 2 ^ 31)
    (hkv : 28 + k.length + v.length ≤ 2 ^ 31)
    (hroom : dirLen B + ops.length * 2 ^ 31 < 2 ^ 63)
    (hrun : runSets (Create B) ops = some db)
    (hset : Set db k v = .ok db2) :
    (∀ j, j ≠ bucket db.nbuckets k → db2.buckets.getD j 0 = db.buckets.getD j 0) ∧
    ∃ recs recs2 : List record,
      (∀ r ∈ recs, readRecord db.file r.offset = some r) ∧
      (∀ r ∈ recs2, readRecord db2.file r.offset = some r) ∧
      (∀ j, j ≠ bucket db.nbuckets k → ∀ tj, Rep recs (db.buckets.getD j 0) tj →
          Rep recs2 (db.buckets.getD j 0) tj) ∧
      (∀ r ∈ recs, ∃ r2 ∈ recs2, r2.offset = r.offset ∧ r2.size = r.size ∧
          r2.key = r.key ∧ r2.value = r.value) ∧
      (recs2 = recs ++ [newRecord db k v] ∨
        ∃ p ∈ recs,
          (p.left = 0 ∧ recs2 = updateRec recs { p with left := db.file.length } ++
              [newRecord db k v]) ∨
          (p.right = 0 ∧ recs2 = updateRec recs { p with right := db.file.length } ++
              [newRecord db k v])) := by
  obtain ⟨db', recs, hrun', hinv, _, hlen⟩ :=
    runSets_inv ops (create_inv B) hsz (by rw [create_file_length]; exact hroom)
  rw [hrun] at hrun'
  injection hrun' with h
  subst h
  rw [create_file_length] at hlen
  have hroom1 : db.file.length < 2 ^ 63 := by omega
  by_cases hroot : db.buckets.getD (bucket db.nbuckets k) 0 = 0
  · obtain ⟨db2', hset', hinv2, _, hbks, _, _⟩ := set_inv_root hinv hkv hroot
    rw [hset] at hset'
    injection hset' with h2
    subst h2
    constructor
    · intro j hj
      rw [hbks]
      exact getD_set_ne _ _ _ _ (fun he => hj he.symm)
    · refine ⟨recs, recs ++ [newRecord db k v], inv_read hinv, inv_read hinv2, ?_, ?_, Or.inl rfl⟩
      · intro j _ tj hrep
        exact rep_append hrep
      · intro r hr
        exact ⟨r, List.mem_append_left _ hr, rfl, rfl, rfl, rfl⟩
  · obtain ⟨db2', recs2, hset', hinv2, _, hbks, _, hshape, hframe⟩ :=
      set_inv_nonroot hinv hkv hroom1 hroot
    rw [hset] at hset'
    injection hset' with h2
    subst h2
    refine ⟨fun j _ => by rw [hbks], recs, recs2, inv_read hinv, inv_read hinv2, hframe, ?_, hshape⟩
    have hpos : ∀ r ∈ recs, 0 < r.size := by
      intro r hr
      have := (hinv.hwf r hr).hsz
      omega
    intro r hr
    rcases hshape with hsh | ⟨p, hp, hcase⟩
    · refine ⟨r, ?_, rfl, rfl, rfl, rfl⟩
      rw [hsh]
      exact List.mem_append_left _ hr
    · rcases hcase with ⟨_, hsh⟩ | ⟨_, hsh⟩
      · by_cases hoff : r.offset = p.offset
        · have hrp : r = p := layout_offset_inj hinv.hlayout hpos r hr p hp hoff
          subst hrp
          refine ⟨{ r with left := db.file.length }, ?_, rfl, rfl, rfl, rfl⟩
          rw [hsh]
          exact List.mem_append_left _ (updateRec_mem_self hr rfl)
        · refine ⟨r, ?_, rfl, rfl, rfl, rfl⟩
          rw [hsh]
          exact List.mem_append_left _ (mem_updateRec_of_ne hr hoff)
      · by_cases hoff : r.offset = p.offset
        · have hrp : r = p := layout_offset_inj hinv.hlayout hpos r hr p hp hoff
          subst hrp
          refine ⟨{ r with right := db.file.length }, ?_, rfl, rfl, rfl, rfl⟩
          rw [hsh]
          exact List.mem_append_left _ (updateRec_mem_self hr rfl)
        · refine ⟨r, ?_, rfl, rfl, rfl, rfl⟩
          rw [hsh]
          exact List.mem_append_left _ (mem_updateRec_of_ne hr hoff)

set_option maxRecDepth 1000000 in
/-- Claim C9 witness: the frame conditions of a second insertion into `dbW`,
evaluated concretely. -/
theorem claim_C9_frame_witness :
    (∀ j, j ≠ bucket dbW.nbuckets [4] → db2W.buckets.getD j 0 = dbW.buckets.getD j 0) ∧
    ∃ recs recs2 : List record,
      (∀ r ∈ recs, readRecord dbW.file r.offset = some r) ∧
      (∀ r ∈ recs2, readRecord db2W.file r.offset = some r) ∧
      (∀ j, j ≠ bucket dbW.nbuckets [4] → ∀ tj, Rep recs (dbW.buckets.getD j 0) tj →
          Rep recs2 (dbW.buckets.getD j 0) tj) ∧
      (∀ r ∈ recs, ∃ r2 ∈ recs2, r2.offset = r.offset ∧ r2.size = r.size ∧
          r2.key = r.key ∧ r2.value = r.value) ∧
      (recs2 = recs ++ [newRecord dbW [4] [5]] ∨
        ∃ p ∈ recs,
          (p.left = 0 ∧ recs2 = updateRec recs { p with left := dbW.file.length } ++
              [newRecord dbW [4] [5]]) ∨
          (p.right = 0 ∧ recs2 = updateRec recs { p with right := dbW.file.length } ++
              [newRecord dbW [4] [5]])) :=
  claim_C9_frame 0 [([2], [3])] dbW db2W [4] [5] (by decide) (by decide) (by decide) rfl rfl

/-- Claim C10, confirmed: in every reachable state there is a record set,
each record reading back from the file at its offset, in which every non-zero
`left` or `right` link points forward — to a record at a strictly greater
offset, appended later — so every root-to-leaf path is finite; consequently
the fuelled tree walk never exhausts its fuel: `Get` never returns `diverge`
and `Set` never returns `diverge`, for any key and value. -/
theorem claim_C10_forward_termination (B : Nat) (ops : List (Bytes × Bytes)) (db : HashDB)
    (hsz : ∀ p ∈ ops, 28 + p.1.length + p.2.length ≤ 2 ^ 31)
    (hroom : dirLen B + ops.length * 2 ^ 31 < 2 ^ 63)
    (hrun : runSets (Create B) ops = some db) :
    (∃ recs : List record,
      (∀ r ∈ recs, readRecord db.file r.offset = some r) ∧
      ∀ r ∈ recs,
        (r.left = 0 ∨ (r.offset < r.left ∧ ∃ q ∈ recs, q.offset = r.left)) ∧
        (r.right = 0 ∨ (r.offset < r.right ∧ ∃ q ∈ recs, q.offset = r.right))) ∧
    (∀ key, Get db key ≠ .diverge) ∧
    (∀ key value, Set db key value ≠ .diverge) := by
  obtain ⟨db', recs, hrun', hinv, _, _⟩ :=
    runSets_inv ops (create_inv B) hsz (by rw [create_file_length]; exact hroom)
  rw [hrun] at hrun'
  injection hrun' with h
  subst h
  refine ⟨⟨recs, inv_read hinv, hinv.hlinks⟩, ?_, ?_⟩
  · intro key
    by_cases hroot : db.buckets.getD (bucket db.nbuckets key) 0 = 0
    · unfold Get
      dsimp only
      rw [if_pos hroot]
      intro hco
      cases hco
    · obtain ⟨t, hrep, _, _, _⟩ := hinv.htree (bucket db.nbuckets key) (bucket_lt _ _)
      obtain ⟨p, _, _, hp3, _, _, _⟩ :=
        @binSearch_found _ key _ (inv_read hinv) _ _ _ hrep hroot (inv_fuel hinv hrep hroot)
      rcases hcmp : bytesCompare key p.key with _ | _ | _ <;>
        (rw [hcmp] at hp3; unfold Get; dsimp only; rw [if_neg hroot, hp3]; intro hco; cases hco)
  · intro key value
    by_cases hroot : db.buckets.getD (bucket db.nbuckets key) 0 = 0
    · unfold Set
      dsimp only
      rw [if_pos hroot]
      intro hco
      cases hco
    · obtain ⟨t, hrep, _, _, _⟩ := hinv.htree (bucket db.nbuckets key) (bucket_lt _ _)
      obtain ⟨p, _, _, hp3, _, _, _⟩ :=
        @binSearch_found _ key _ (inv_read hinv) _ _ _ hrep hroot (inv_fuel hinv hrep hroot)
      unfold Set
      dsimp only
      rw [if_neg hroot, hp3]
      intro hco
      cases hco

set_option maxRecDepth 1000000 in
/-- Claim C10 witness: forward links and non-divergence of the walks on a
concrete one-insertion state. -/
theorem claim_C10_forward_termination_witness :
    (∃ recs : List record,
      (∀ r ∈ recs, readRecord ((runSets (Create 0) [([1], [2])]).getD (Create 0)).file r.offset = some r) ∧
      ∀ r ∈ recs,
        (r.left = 0 ∨ (r.offset < r.left ∧ ∃ q ∈ recs, q.offset = r.left)) ∧
        (r.right = 0 ∨ (r.offset < r.right ∧ ∃ q ∈ recs, q.offset = r.right))) ∧
    (∀ key, Get ((runSets (Create 0) [([1], [2])]).getD (Create 0)) key ≠ .diverge) ∧
    (∀ key value, Set ((runSets (Create 0) [([1], [2])]).getD (Create 0)) key value ≠ .diverge) :=
  claim_C10_forward_termination 0 [([1], [2])] _ (by decide) (by decide) rfl

end Godbm
